import Mathlib

/-!
Verification of the self-describing command registry of the emojipedia
repository.  The registry appears twice in the source, as package `x`
(src/x/x.go) and as package `cli` (the usage-formatter file); both are
embedded below, over a shallow model of the runtime inputs (reflection
data, symbol names and the registration source line) that the Go code
obtains from `reflect`/`runtime`.

Conventions of the embedding:
* Go strings are Lean `String`s; all character-level helpers mirror the
  byte/char behaviour of the `strings` functions actually used by the
  source on its ASCII inputs (`strings.ToLower`/`ToUpper` are modelled on
  the ASCII letter range, which is the only range the Go code relies on).
* `strings.Split` is only ever called with a single-character separator,
  so it is modelled by `splitOnChar`.
* Go map assignment is modelled by an association list with
  replace-on-collision insertion.
* Functions that can panic in Go (out-of-range reflection or slice
  indexing) return `Option`, with `none` marking the panic.
-/

/-- ASCII uppercase test, the character class `[A-Z]` of the source's
regular expressions. -/
def isUpperAscii (c : Char) : Bool := 'A' ≤ c && c ≤ 'Z'

/-- ASCII lowercase test. -/
def isLowerAscii (c : Char) : Bool := 'a' ≤ c && c ≤ 'z'

/-- Lower-case one character; models `strings.ToLower` character-wise on
the ASCII range used by the source. -/
def lowerChar (c : Char) : Char :=
  if isUpperAscii c then Char.ofNat (c.toNat + 32) else c

/-- Upper-case one character; models `strings.ToUpper` character-wise on
the ASCII range used by the source. -/
def upperChar (c : Char) : Char :=
  if isLowerAscii c then Char.ofNat (c.toNat - 32) else c

/-- Models `strings.ToLower`. -/
def lowerStr (s : String) : String := String.mk (s.data.map lowerChar)

/-- Models `strings.ToUpper`. -/
def upperStr (s : String) : String := String.mk (s.data.map upperChar)

/-- Split a character list at every occurrence of `sep`; models
`strings.Split` with a single-character separator (the only shape the
source uses: " " and ","). -/
def splitOnChar (sep : Char) : List Char → List (List Char)
  | [] => [[]]
  | c :: rest =>
    match splitOnChar sep rest with
    | [] => [[]]
    | g :: gs => if c = sep then [] :: g :: gs else (c :: g) :: gs

/-- String wrapper for `splitOnChar`. -/
def strSplitOn (s : String) (sep : Char) : List String :=
  (splitOnChar sep s.data).map String.mk

/-- Models `strings.Join`. -/
def joinWith (sep : String) : List String → String
  | [] => ""
  | [a] => a
  | a :: b :: rest => a ++ sep ++ joinWith sep (b :: rest)

/-- A run of `n` spaces; models the padding loop of `WrapFunction`. -/
def spaces (n : Nat) : String := String.mk (List.replicate n ' ')

/-- Models the `strings.NewReplacer("[", "", "]", "")` replacer of the
source: delete every square bracket. -/
def stripBrackets (s : String) : String :=
  String.mk (s.data.filter (fun c => !(c = '[' || c = ']')))

/-- Character membership in a string. -/
def containsChar (s : String) (c : Char) : Bool := s.data.contains c

/-- ASCII whitespace; models the whitespace class of `strings.TrimSpace`
on the source's inputs. -/
def isSpaceChar (c : Char) : Bool := c = ' ' || c = '\t' || c = '\n' || c = '\r'

/-- Models `strings.TrimSpace`. -/
def trimSpace (s : String) : String :=
  String.mk (((s.data.dropWhile isSpaceChar).reverse.dropWhile isSpaceChar).reverse)

/-- Models `path/filepath.Base` on unix separators. -/
def filepathBase (path : String) : String :=
  if path = "" then "."
  else
    let cs := (path.data.reverse.dropWhile (· = '/')).reverse
    let cs := (cs.reverse.takeWhile (· ≠ '/')).reverse
    if cs = [] then "/" else String.mk cs

/-- Models the Go slice `name[(strings.Index(name, ".") + 1):]`: drop
everything up to and including the first `'.'`; the whole string when no
dot occurs (`Index` returns `-1`). -/
def stripFirstDot (s : String) : String :=
  match s.data.dropWhile (· ≠ '.') with
  | [] => s
  | _ :: rest => String.mk rest

/-- Models the `for i > -1` loop of `x.NewDeconstruct` (src/x/x.go:96):
while the name still contains a dot, strip through the first dot; the
result is the suffix after the last dot. -/
def stripQualifier (s : String) : String :=
  if h : containsChar s '.' then stripQualifier (stripFirstDot s) else s
termination_by s.length
decreasing_by
  have hmem : '.' ∈ s.data := by simpa [containsChar] using h
  have hle := (List.dropWhile_sublist (fun c => decide (c ≠ '.')) (l := s.data)).length_le
  rcases hm : s.data.dropWhile (· ≠ '.') with _ | ⟨d, rest⟩
  · exfalso
    have hall := List.dropWhile_eq_nil_iff.mp hm
    simpa using hall '.' hmem
  · rw [hm] at hle
    simp only [stripFirstDot, hm, String.length, List.length_cons] at *
    omega

/-- First match group of the regular expression `\(([^()]+)\)` used by
both `NewParameters` implementations: the leftmost `(`-delimited,
nonempty run of non-parenthesis characters that is closed by `)`.
`none` models "no match". -/
def findGroup : List Char → Option (List Char)
  | [] => none
  | c :: rest =>
    if c = '(' then
      let run := rest.takeWhile (fun x => !(x = '(' || x = ')'))
      let rem := rest.dropWhile (fun x => !(x = '(' || x = ')'))
      if run ≠ [] && rem.headD ' ' = ')' then some run
      else findGroup rest
    else findGroup rest

/-- String wrapper for `findGroup`. -/
def findParenGroup (s : String) : Option String := (findGroup s.data).map String.mk

/-- One reflected parameter type: the results of
`reflect.Type.In(i).String()` and `In(i).Kind().String()`. -/
structure RType where
  str : String
  kind : String
deriving Repr, DecidableEq

/-- The reflected shape of a Go function value: its parameter types (in
order) and its variadic flag, i.e. the part of `reflect.Type` the source
consumes. -/
structure ReflectType where
  ins : List RType
  variadic : Bool
deriving Repr, DecidableEq

/-- The runtime-derived inputs of descriptor construction for one Go
function value: the fully-qualified symbol name from
`runtime.FuncForPC(...).Name()`, the text of the source line that
`FileLine` resolves to (the one-time file read of the constructors is
modelled by handing that line's text over directly), the reflected
type, the entry-address token, the resolved file path and line number,
and an opaque tag standing for the Go function value itself. -/
structure FuncMeta where
  qualName : String
  srcLine : String
  typ : ReflectType
  ptr : Nat
  path : String
  line : Nat
  tag : String
deriving Repr, DecidableEq

/-! ## Package `x` (src/x/x.go) -/

namespace X

/-- `x.Argument` (src/x/x.go:24). -/
structure Argument where
  Address : Nat
  Kind : String
  Pointer : Bool
  Position : Nat
  Name : String
  Slice : Bool
  Value : String
  Variadic : Bool
deriving Repr, DecidableEq

/-- `x.Arg` (src/x/x.go:20): a possibly-nil `*Argument`. -/
structure Arg where
  Argument : Option Argument
deriving Repr, DecidableEq

/-- `x.NewArgument` (src/x/x.go:66). -/
def NewArgument (name value : String) (position : Nat) (pointer : Nat)
    (variadic : Bool) (kind : String) : Argument :=
  { Address := pointer
    Kind := kind
    Pointer := containsChar value '*'
    Position := position
    Slice := kind == "slice"
    Name := name
    Value := stripBrackets value
    Variadic := variadic }

/-- `x.NewArguments` (src/x/x.go:78), with the loop index made explicit.
`reflection.In(i)` panics when `i` is at least the reflected arity, which
happens exactly when more parameter names were parsed from the source
line than the function has reflected parameters; the panic is modelled
by `none`. -/
def NewArguments (reflection : List RType) (pointer : Nat) (variadic : Bool) :
    Nat → List String → Option (List Argument)
  | _, [] => some []
  | i, parameter :: rest =>
    match reflection.get? i with
    | none => none
    | some inn =>
      let substrings := strSplitOn parameter ' '
      let argument := NewArgument (substrings.headD "") inn.str i pointer variadic inn.kind
      (NewArguments reflection pointer variadic (i + 1) rest).map (argument :: ·)

/-- `x.NewParameters` (src/x/x.go:132): first parenthesised group of the
registration line, split on commas; the empty list when the regular
expression does not match. -/
def NewParameters (srcLine : String) : List String :=
  match findParenGroup srcLine with
  | some g => strSplitOn g ','
  | none => []

/-- `x.Deconstruct` (src/x/x.go:38).  The Go field `Type` is renamed
`Typ` because `Type` is a Lean keyword. -/
structure Deconstruct where
  Parameters : List String
  Pointer : Nat
  Name : String
  Typ : ReflectType
  Variadic : Bool
deriving Repr, DecidableEq

/-- `x.NewDeconstruct` (src/x/x.go:89): strips the qualified symbol name
to the suffix after the last dot of its path base. -/
def NewDeconstruct (m : FuncMeta) : Deconstruct :=
  { Parameters := NewParameters m.srcLine
    Pointer := m.ptr
    Name := stripQualifier (filepathBase m.qualName)
    Typ := m.typ
    Variadic := m.typ.variadic }

/-- `x.Function` (src/x/x.go:46).  The Go function value `F` is kept as
an opaque tag. -/
structure Function where
  Arguments : List Argument
  Empty : Bool
  F : String
  Length : Nat
  Pointer : Nat
  Name : String
  Variadic : Bool
deriving Repr, DecidableEq

/-- `x.NewFunction` (src/x/x.go:109). -/
def NewFunction (m : FuncMeta) : Option Function :=
  let d := NewDeconstruct m
  (NewArguments d.Typ.ins d.Pointer d.Variadic 0 d.Parameters).map fun arguments =>
    { Arguments := arguments
      Empty := arguments.length == 0
      F := m.tag
      Length := arguments.length
      Pointer := d.Pointer
      Name := d.Name
      Variadic := d.Variadic }

/-- `x.Functions` (src/x/x.go:56): a Go map, modelled as an association
list with unique keys. -/
abbrev Functions := List (String × Function)

/-- Go map assignment `m[key] = v`: replace an existing entry for the
key, otherwise append a new one. -/
def mapSet (functions : Functions) (key : String) (function : Function) : Functions :=
  if functions.any (fun p => p.1 == key) then
    functions.map (fun p => if p.1 == key then (key, function) else p)
  else functions ++ [(key, function)]

/-- `x.NewFunctions` (src/x/x.go:123): register every function under the
upper-cased stripped name; construction fails altogether when any single
construction panics. -/
def NewFunctions (metas : List FuncMeta) : Option Functions :=
  metas.foldlM
    (fun functions m => (NewFunction m).map (fun n => mapSet functions (upperStr n.Name) n)) []

/-- `x.Functions.Get` (src/x/x.go:211): case-insensitive lookup; `(nil,
false)` when absent. -/
def Functions.Get (functions : Functions) (key : String) : Option Function × Bool :=
  match functions.lookup (upperStr key) with
  | some f => (some f, true)
  | none => (none, false)

/-- `x.Functions.Has` (src/x/x.go:216). -/
def Functions.Has (functions : Functions) (key : String) : Bool :=
  (functions.lookup (upperStr key)).isSome

/-- `x.Runner` (src/x/x.go:58). -/
structure Runner where
  Functions : Functions
deriving Repr, DecidableEq

/-- `x.Arguments.Bounds` (src/x/x.go:164). -/
def Arguments.Bounds (arguments : List Argument) (i : Int) : Bool :=
  (-1 < i) && (i < (arguments.length : Int))

/-- `x.Arguments.Get` (src/x/x.go:176): the Go zero value `nil` of the
out-of-range case is `none`. -/
def Arguments.Get (arguments : List Argument) (i : Int) : Option Argument × Bool :=
  if Arguments.Bounds arguments i then (arguments.get? i.toNat, true)
  else (none, false)

/-- `x.Arguments.Peek` (src/x/x.go:188): always a (non-nil) `Arg`, whose
inner pointer is populated only in bounds. -/
def Arguments.Peek (arguments : List Argument) (i : Int) : Arg :=
  match Arguments.Get arguments i with
  | (argument, true) => { Argument := argument }
  | (_, false) => { Argument := none }

/-- `x.Argument.Is` (src/x/x.go:156), minus its debug print: a
case-insensitive comparison of the argument's display value with the
key. -/
def Argument.Is (argument : Argument) (key : String) : Bool :=
  upperStr argument.Value == upperStr key

/-- `x.Arg.Is` (src/x/x.go:151): `false` on a nil inner pointer. -/
def Arg.Is (arg : Arg) (key : String) : Bool :=
  match arg.Argument with
  | some argument => Argument.Is argument key
  | none => false

/-- `x.Runner.Get` (src/x/x.go:226).  NOTE the faithful modelling of the
source's variable shadowing: both `argument, ok := ...` and
`ok = argument.Is("interface")` write to an `ok` that is local to the
inner `if` statements, so the function RETURNS the `ok` of the plain
registry lookup, while the type-gate only decides whether the callable
`f` is populated.  The callable itself is modelled by the function's
opaque tag. -/
def Runner.Get (runner : Runner) (key : String) : Option String × Bool :=
  let lookupResult := Functions.Get runner.Functions key
  let ok := lookupResult.2
  let f : Option String :=
    match lookupResult.1 with
    | some function =>
      if ok && function.Variadic then
        match Arguments.Get function.Arguments 0 with
        | (some argument, true) =>
          if Argument.Is argument "interface" then some function.F else none
        | _ => none
      else none
    | none => none
  (f, ok)

end X

/-! ## Package `cli` (the usage-formatter source file) -/

namespace Cli

/-- `lineLength` (source line 16). -/
def lineLength : Nat := 79

/-- `cli.Argument` (source line 19). -/
structure Argument where
  Kind : String
  Parameter : String
  Pointer : Nat
  Position : Nat
  Name : String
  Slice : Bool
  Value : String
  Varadict : Bool
deriving Repr, DecidableEq

/-- `cli.Function` (source line 34). -/
structure Function where
  Arguments : List Argument
  F : String
  Line : Nat
  Path : String
  Pointer : Nat
  Name : String
  Varadict : Bool
deriving Repr, DecidableEq

/-- `cli.NewArgument` (source line 67).  `t.In(i)` is total inside
`NewFunction`'s loop (`i < NumIn`); out of that range it panics, hence
`Option`. -/
def NewArgument (i : Nat) (pointer : Nat) (parameter : String) (t : ReflectType) :
    Option Argument :=
  (t.ins.get? i).map fun properties =>
    { Kind := properties.kind
      Parameter := parameter
      Pointer := pointer
      Position := i
      Name := (strSplitOn (trimSpace parameter) ' ').headD ""
      Slice := properties.kind == "slice"
      Value := stripBrackets properties.str
      Varadict := t.variadic }

/-- The token list produced by
`regexp.MustCompile(`[A-Z]+[^A-Z]*|[^A-Z]+`).FindAllString(name, -1)`
(source line 94).  Go's leftmost-first greedy matching tokenises the
whole string with no gaps: at an uppercase head the first alternative
consumes the maximal uppercase run and then the maximal non-uppercase
run; at a non-uppercase head the second alternative consumes the
maximal non-uppercase run. -/
def camelTokensL (cs : List Char) : List (List Char) :=
  match cs with
  | [] => []
  | c :: rest =>
    if isUpperAscii c then
      (c :: (rest.takeWhile isUpperAscii
              ++ (rest.dropWhile isUpperAscii).takeWhile (fun x => !isUpperAscii x)))
        :: camelTokensL ((rest.dropWhile isUpperAscii).dropWhile (fun x => !isUpperAscii x))
    else
      (c :: rest.takeWhile (fun x => !isUpperAscii x))
        :: camelTokensL (rest.dropWhile (fun x => !isUpperAscii x))
termination_by cs.length
decreasing_by
  · have h1 := (List.dropWhile_sublist isUpperAscii (l := rest)).length_le
    have h2 := (List.dropWhile_sublist (fun x => !isUpperAscii x)
      (l := rest.dropWhile isUpperAscii)).length_le
    simp only [List.length_cons]
    omega
  · have h1 := (List.dropWhile_sublist (fun x => !isUpperAscii x) (l := rest)).length_le
    simp only [List.length_cons]
    omega

/-- String wrapper for `camelTokensL`. -/
def camelTokens (s : String) : List String := (camelTokensL s.data).map String.mk

/-- The display-name normalisation inlined in `cli.NewFunction` (source
lines 92-97 and 119): path base, strip through the FIRST dot, tokenise
on the camel-case regular expression, hyphen-join when any token was
found, lower-case. -/
def normalizeName (qualName : String) : String :=
  let name := stripFirstDot (filepathBase qualName)
  let substrings := camelTokens name
  let name := if substrings.length ≠ 0 then joinWith "-" substrings else name
  lowerStr name

/-- The argument loop of `cli.NewFunction` (source lines 109-111):
`for i := 0; i < NumIn; i++` append `NewArgument(i, pointer,
parameters[i], t)`.  The remaining iteration count is the structural
argument; `parameters[i]` panics (`none`) when fewer name tokens were
parsed than the reflected arity. -/
def argumentsLoop (t : ReflectType) (pointer : Nat) (parameters : List String) :
    Nat → Nat → Option (List Argument)
  | _, 0 => some []
  | i, k + 1 =>
    match parameters.get? i with
    | none => none
    | some p =>
      (NewArgument i pointer p t).bind fun argument =>
        (argumentsLoop t pointer parameters (i + 1) k).map (argument :: ·)

/-- `cli.NewFunction` (source line 86).  When the parameter regular
expression does not match, the argument loop never runs and the
descriptor silently keeps an empty argument list; when it matches,
`parameters[i]` panics (`none`) if fewer name tokens were parsed than
the reflected arity. -/
def NewFunction (m : FuncMeta) : Option Function :=
  let t := m.typ
  let name := normalizeName m.qualName
  let arguments? : Option (List Argument) :=
    match findParenGroup m.srcLine with
    | none => some []
    | some g => argumentsLoop t m.ptr (strSplitOn g ',') 0 t.ins.length
  arguments?.map fun arguments =>
    { Arguments := arguments
      F := m.tag
      Line := m.line
      Path := m.path
      Pointer := m.ptr
      Name := name
      Varadict := t.variadic }

/-- `cli.GetArgumentString` (source line 150). -/
def GetArgumentString (argument : Argument) : String :=
  if argument.Varadict then argument.Name ++ " [..." ++ argument.Value ++ "]"
  else if argument.Slice then argument.Name ++ "=[..." ++ argument.Value ++ "]"
  else argument.Name ++ "=<" ++ argument.Value ++ ">"

/-- `cli.GetFunctionString` (source line 160). -/
def GetFunctionString (function : Function) : String :=
  let substrings := function.Arguments.map (fun a => lowerStr (GetArgumentString a))
  let usage := joinWith ", " substrings
  if usage.length ≠ 0 then function.Name ++ " [" ++ usage ++ "]"
  else "--" ++ function.Name

/-- Loop body of `cli.WrapDescription` (source lines 176-183): append
the word and a space, then break the line once the running count has
reached the column budget. -/
def wrapStep (st : String × Nat) (word : String) : String × Nat :=
  let cursor := st.2 + word.length + 1
  let about := st.1 ++ word ++ " "
  if lineLength ≤ cursor then (about ++ "\n", 0) else (about, cursor)

/-- `cli.WrapDescription` (source line 172). -/
def WrapDescription (paragraph : String) : String :=
  ((strSplitOn paragraph ' ').foldl wrapStep ("", 0)).1

/-- Loop body of `cli.WrapFunction` (source lines 193-203): if the
current line's joined width plus the banner offset plus the incoming
option would reach the budget, open a fresh line; then append the
option to the last line. -/
def wrapStepF (offset : Nat) (paragraphs : List (List String)) (option : String) :
    List (List String) :=
  let current := paragraphs.getLastD []
  let cursor := (joinWith " " current).length + offset + option.length
  if lineLength ≤ cursor then paragraphs ++ [[option]]
  else paragraphs.dropLast ++ [current ++ [option]]

/-- The `paragraphs` slice after `cli.WrapFunction`'s first loop. -/
def wrapParagraphs (offset : Nat) (functions : List Function) : List (List String) :=
  functions.foldl
    (fun ps function => wrapStepF offset ps ("[" ++ GetFunctionString function ++ "]")) [[]]

/-- `cli.WrapFunction` (source line 187).  Note the continuation-line
format string `"\n %s%s"`: one literal space plus `offset` padding
spaces. -/
def WrapFunction (name : String) (functions : List Function) : String :=
  let header := "usage: " ++ name
  let offset := header.length
  let paragraphs := wrapParagraphs offset functions
  let first := paragraphs.headD []
  let rest := paragraphs.tail
  let template := header ++ " [" ++ joinWith " " first
  let template := rest.foldl
    (fun t sentence => t ++ ("\n " ++ spaces offset ++ joinWith " " sentence)) template
  template ++ "]"

/-- `cli.WrapUse` (source line 221). -/
def WrapUse (name description : String) (functions : List Function) : String :=
  WrapDescription description ++ "\n\n" ++ WrapFunction name functions

end Cli

/-! ## Proof-support definitions

Structured views of the renderers (used to state line-by-line
properties of the wrapped usage document) and spec-side formulations of
the name normalisation (used for refinement statements). -/

/-- Insert a hyphen before every uppercase letter that follows a
non-uppercase character: the spec's "split on internal uppercase-letter
boundaries and join with a hyphen", written as a direct single pass with
one character of look-behind. -/
def hyphAux (prev : Char) : List Char → List Char
  | [] => []
  | c :: rest =>
    if isUpperAscii c && !isUpperAscii prev then '-' :: c :: hyphAux c rest
    else c :: hyphAux c rest

/-- Boundary-hyphenation of a whole character list. -/
def hyphenateCamel : List Char → List Char
  | [] => []
  | c :: rest => c :: hyphAux c rest

/-- Hyphen-joining of character-list tokens. -/
def joinDash : List (List Char) → List Char
  | [] => []
  | [t] => t
  | t :: u :: rest => t ++ '-' :: joinDash (u :: rest)

/-- The display-name computation stated by the amended claim C7: strip
the path base's qualifier at the FIRST dot, hyphenate at uppercase
boundaries, lower-case. -/
def specDisplayFirstDot (s : String) : String :=
  lowerStr (String.mk (hyphenateCamel (stripFirstDot (filepathBase s)).data))

/-- The display-name computation stated by the original claim C7: strip
everything up to and including the LAST dot, hyphenate at uppercase
boundaries, lower-case. -/
def specDisplayLastDot (s : String) : String :=
  lowerStr (String.mk (hyphenateCamel (stripQualifier (filepathBase s)).data))

/-- Structured companion of `Cli.wrapStep`: keep the completed lines
(without their newline terminators) and the current line separately. -/
def wrapStepL (st : List String × String × Nat) (word : String) :
    List String × String × Nat :=
  let cursor := st.2.2 + word.length + 1
  let cur := st.2.1 ++ word ++ " "
  if Cli.lineLength ≤ cursor then (st.1 ++ [cur], "", 0) else (st.1, cur, cursor)

/-- Completed lines, current line and cursor of `Cli.WrapDescription`. -/
def descTriple (paragraph : String) : List String × String × Nat :=
  (strSplitOn paragraph ' ').foldl wrapStepL ([], "", 0)

/-- The lines of the description-wrap block, last (unfinished) line
included. -/
def descLines (paragraph : String) : List String :=
  (descTriple paragraph).1 ++ [(descTriple paragraph).2.1]

/-- Concatenate lines, terminating each with a newline. -/
def joinLines : List String → String
  | [] => ""
  | l :: ls => l ++ "\n" ++ joinLines ls

/-- A continuation line of the option-wrap block: the literal space of
the `"\n %s%s"` format string, `offset` padding spaces, then the
space-joined option tokens of the line's paragraph. -/
def contLine (offset : Nat) (sentence : List String) : String :=
  " " ++ spaces offset ++ joinWith " " sentence

/-- The rendered option-block lines, each paired with its paragraph of
option tokens, before the closing bracket is attached. -/
def optAnnCore (header : String) (ps : List (List String)) : List (String × List String) :=
  (header ++ " [" ++ joinWith " " (ps.headD []), ps.headD [])
    :: ps.tail.map (fun s => (contLine header.length s, s))

/-- Attach `x` to the last rendered line. -/
def appendLastAnn : List (String × List String) → String → List (String × List String)
  | [], _ => []
  | [(a, p)], x => [(a ++ x, p)]
  | a :: b :: rest, x => a :: appendLastAnn (b :: rest) x

/-- The lines of `Cli.WrapFunction`'s output, each paired with its
paragraph of option tokens. -/
def optLinesAnn (name : String) (functions : List Cli.Function) : List (String × List String) :=
  appendLastAnn
    (optAnnCore ("usage: " ++ name)
      (Cli.wrapParagraphs ("usage: " ++ name).length functions)) "]"

/-- The lines of `Cli.WrapFunction`'s output. -/
def optLines (name : String) (functions : List Cli.Function) : List String :=
  (optLinesAnn name functions).map Prod.fst

/-! ## Concrete inputs used by the claim evaluations -/

/-- `func Build(target string, force bool)` registered from a line of
source text, with its reflected types (claim C9's example). -/
def buildMeta : FuncMeta :=
  { qualName := "main.Build"
    srcLine := "func Build(target string, force bool) \x7b"
    typ := { ins := [{ str := "string", kind := "string" }, { str := "bool", kind := "bool" }]
             variadic := false }
    ptr := 1, path := "main.go", line := 10, tag := "Build" }

/-- `func Run(a int, opts ...interface\x7b\x7d)`: a variadic function with a
leading non-variadic parameter (the shape used by claim C2 and the
spec's own dispatch example). -/
def runMeta : FuncMeta :=
  { qualName := "main.Run"
    srcLine := "func Run(a int, opts ...interface\x7b\x7d) \x7b\x7d"
    typ := { ins := [{ str := "int", kind := "int" }, { str := "[]interface \x7b\x7d", kind := "slice" }]
             variadic := true }
    ptr := 2, path := "main.go", line := 20, tag := "Run" }

/-- The descriptor `cli.NewFunction` builds for `runMeta`. -/
def runFn : Cli.Function :=
  { Arguments :=
      [{ Kind := "int", Parameter := "a int", Pointer := 2, Position := 0,
         Name := "a", Slice := false, Value := "int", Varadict := true },
       { Kind := "slice", Parameter := " opts ...interface\x7b\x7d", Pointer := 2, Position := 1,
         Name := "opts", Slice := true, Value := "interface \x7b\x7d", Varadict := true }]
    F := "Run", Line := 20, Path := "main.go", Pointer := 2, Name := "run", Varadict := true }

/-- `func Foo(a int)`: a plain fixed-arity, non-variadic function
(claim C1's failing input). -/
def fooMeta : FuncMeta :=
  { qualName := "main.Foo"
    srcLine := "func Foo(a int) \x7b"
    typ := { ins := [{ str := "int", kind := "int" }], variadic := false }
    ptr := 3, path := "main.go", line := 30, tag := "Foo" }

/-- A registration line whose parameter list continues on the next
physical line: the regular expression finds no parenthesised group, so
zero parameter names are parsed while the reflected arity is 2 (claim
C4's silent-truncation input). -/
def pairMeta : FuncMeta :=
  { qualName := "main.Pair"
    srcLine := "func Pair("
    typ := { ins := [{ str := "int", kind := "int" }, { str := "string", kind := "string" }]
             variadic := false }
    ptr := 7, path := "main.go", line := 70, tag := "Pair" }

/-- First function whose name collides after normalisation (claim C5). -/
def dupMeta1 : FuncMeta :=
  { qualName := "main.Dup", srcLine := "func Dup() \x7b"
    typ := { ins := [], variadic := false }, ptr := 11, path := "a.go", line := 5, tag := "Dup1" }

/-- Second function whose name collides after normalisation (claim C5). -/
def dupMeta2 : FuncMeta :=
  { qualName := "other.Dup", srcLine := "func Dup() \x7b"
    typ := { ins := [], variadic := false }, ptr := 12, path := "b.go", line := 6, tag := "Dup2" }

/-- The descriptor `x.NewFunction` builds for `dupMeta1`. -/
def dupFn1 : X.Function :=
  { Arguments := [], Empty := true, F := "Dup1", Length := 0, Pointer := 11
    Name := "Dup", Variadic := false }

/-- The descriptor `x.NewFunction` builds for `dupMeta2`. -/
def dupFn2 : X.Function :=
  { Arguments := [], Empty := true, F := "Dup2", Length := 0, Pointer := 12
    Name := "Dup", Variadic := false }

/-- An eight-word description whose greedy wrap emits an 88-character
line (claim C3's counterexample input). -/
def longDesc : String :=
  "aaaaaaaaaa bbbbbbbbbb cccccccccc dddddddddd eeeeeeeeee ffffffffff gggggggggg hhhhhhhhhh"

/-- A zero-argument function with a one-letter name (claim C8). -/
def aMeta : FuncMeta :=
  { qualName := "main.A", srcLine := "func A() \x7b"
    typ := { ins := [], variadic := false }, ptr := 5, path := "main.go", line := 50, tag := "A" }

/-- A zero-argument function with a 70-letter name, long enough to force
the option wrapper onto a continuation line (claim C8). -/
def bMeta : FuncMeta :=
  { qualName := "main.Bbbbbbbbbbbbbbbbbbbbbbbbbbbbbbbbbbbbbbbbbbbbbbbbbbbbbbbbbbbbbbbbbbbbbb"
    srcLine := "func B() \x7b"
    typ := { ins := [], variadic := false }, ptr := 6, path := "main.go", line := 60, tag := "B" }

/-- The descriptor `cli.NewFunction` builds for `aMeta`. -/
def aFn : Cli.Function :=
  { Arguments := [], F := "A", Line := 50, Path := "main.go", Pointer := 5
    Name := "a", Varadict := false }

/-- The descriptor `cli.NewFunction` builds for `bMeta`. -/
def bFn : Cli.Function :=
  { Arguments := [], F := "B", Line := 60, Path := "main.go", Pointer := 6
    Name := "bbbbbbbbbbbbbbbbbbbbbbbbbbbbbbbbbbbbbbbbbbbbbbbbbbbbbbbbbbbbbbbbbbbbbb"
    Varadict := false }

/-- A sample argument descriptor for exercising the bounds-checked
accessors (claim C10's witness); it is also the argument descriptor
`x.NewArguments` builds for `fooMeta`. -/
def intArg : X.Argument :=
  { Address := 3, Kind := "int", Pointer := false, Position := 0
    Name := "a", Slice := false, Value := "int", Variadic := false }

/-- The descriptor `x.NewFunction` builds for `fooMeta`. -/
def fooFn : X.Function :=
  { Arguments := [intArg], Empty := false, F := "Foo", Length := 1, Pointer := 3
    Name := "Foo", Variadic := false }

/-! ## General lemmas about the string helpers -/

theorem strMk_data (s : String) : String.mk s.data = s := rfl

theorem data_strMk (cs : List Char) : (String.mk cs).data = cs := rfl

theorem length_strMk (cs : List Char) : (String.mk cs).length = cs.length := rfl

theorem splitOnChar_ne_nil (sep : Char) (cs : List Char) : splitOnChar sep cs ≠ [] := by
  cases cs with
  | nil => simp [splitOnChar]
  | cons c rest =>
    simp only [splitOnChar]
    rcases h : splitOnChar sep rest with _ | ⟨g, gs⟩
    · simp
    · by_cases hc : c = sep <;> simp [hc]

theorem mem_splitOnChar_not_sep (sep : Char) (cs : List Char) :
    ∀ g ∈ splitOnChar sep cs, sep ∉ g := by
  induction cs with
  | nil =>
    intro g hg
    simp only [splitOnChar, List.mem_singleton] at hg
    simp [hg]
  | cons c rest ih =>
    rcases h : splitOnChar sep rest with _ | ⟨g0, gs⟩
    · exact absurd h (splitOnChar_ne_nil sep rest)
    · intro g hg
      simp only [splitOnChar, h] at hg
      by_cases hc : c = sep
      · simp only [if_pos hc] at hg
        rcases List.mem_cons.mp hg with h1 | h1
        · simp [h1]
        · exact ih g (h ▸ h1)
      · simp only [if_neg hc] at hg
        rcases List.mem_cons.mp hg with h1 | h1
        · subst h1
          intro hmem
          rcases List.mem_cons.mp hmem with h2 | h2
          · exact hc h2.symm
          · exact ih g0 (h ▸ List.mem_cons_self g0 gs) h2
        · exact ih g (h ▸ List.mem_cons_of_mem g0 h1)

theorem mem_strSplitOn_not_sep (s : String) (sep : Char) :
    ∀ w ∈ strSplitOn s sep, containsChar w sep = false := by
  intro w hw
  simp only [strSplitOn, List.mem_map] at hw
  obtain ⟨g, hg, rfl⟩ := hw
  have hns := mem_splitOnChar_not_sep sep s.data g hg
  simpa [containsChar, data_strMk] using hns

theorem joinWith_cons (sep : String) (a : String) (l : List String) (h : l ≠ []) :
    joinWith sep (a :: l) = a ++ sep ++ joinWith sep l := by
  cases l with
  | nil => exact absurd rfl h
  | cons b rest => simp [joinWith]

theorem joinWith_append (sep : String) (xs ys : List String) (hx : xs ≠ []) (hy : ys ≠ []) :
    joinWith sep (xs ++ ys) = joinWith sep xs ++ sep ++ joinWith sep ys := by
  induction xs with
  | nil => exact absurd rfl hx
  | cons a xs ih =>
    cases xs with
    | nil =>
      simp only [List.singleton_append]
      rw [joinWith_cons sep a ys hy]
      rfl
    | cons b rest =>
      have hne : b :: rest ≠ [] := by simp
      have hne2 : (b :: rest) ++ ys ≠ [] := by simp
      rw [List.cons_append, joinWith_cons sep a _ hne2, ih hne,
        joinWith_cons sep a _ hne]
      simp [String.append_assoc]

theorem joinWith_concat (sep : String) (xs : List String) (t : String) (hx : xs ≠ []) :
    joinWith sep (xs ++ [t]) = joinWith sep xs ++ sep ++ t := by
  rw [joinWith_append sep xs [t] hx (by simp)]
  rfl

theorem joinLines_append (xs ys : List String) :
    joinLines (xs ++ ys) = joinLines xs ++ joinLines ys := by
  induction xs with
  | nil => simp [joinLines]
  | cons a xs ih => simp [joinLines, ih, String.append_assoc]

theorem joinWith_newline_concat (xs : List String) (c : String) :
    joinWith "\n" (xs ++ [c]) = joinLines xs ++ c := by
  induction xs with
  | nil => simp [joinWith, joinLines]
  | cons a xs ih =>
    cases xs with
    | nil => simp [joinLines, joinWith, String.append_assoc]
    | cons b rest =>
      rw [List.cons_append, joinWith_cons _ a _ (by simp), ih]
      simp [joinLines, String.append_assoc]

theorem spaces_succ (n : Nat) : spaces (n + 1) = " " ++ spaces n := by
  apply String.ext
  simp only [spaces, data_strMk, List.replicate_succ, String.data_append]
  rfl

/-! ## Claim C10: totality of indexed argument access -/

/-- C10: Indexed access into an argument collection is total: `Get`
returns `(nil, false)` whenever `i < 0` or `i ≥ length`, and the `i`-th
argument with `ok = true` otherwise; `Peek` always returns an `Arg`,
out of range one with a nil inner pointer, and such an `Arg` answers
`false` to `Is(key)` for every key — no index panics (all accessors are
total functions of the model). -/
theorem C10_indexed_access_total (arguments : List X.Argument) (i : Int) (key : String) :
    ((i < 0 ∨ (arguments.length : Int) ≤ i) →
      X.Arguments.Get arguments i = (none, false) ∧
      X.Arguments.Peek arguments i = { Argument := none } ∧
      X.Arg.Is (X.Arguments.Peek arguments i) key = false) ∧
    ((0 ≤ i ∧ i < (arguments.length : Int)) →
      ∃ a, arguments.get? i.toNat = some a ∧
        X.Arguments.Get arguments i = (some a, true) ∧
        X.Arguments.Peek arguments i = { Argument := some a }) := by
  constructor
  · intro h
    have hb : X.Arguments.Bounds arguments i = false := by
      simp only [X.Arguments.Bounds, Bool.and_eq_false_iff, decide_eq_false_iff_not, not_lt]
      omega
    refine ⟨?_, ?_, ?_⟩
    · simp [X.Arguments.Get, hb]
    · simp [X.Arguments.Peek, X.Arguments.Get, hb]
    · simp [X.Arg.Is, X.Arguments.Peek, X.Arguments.Get, hb]
  · rintro ⟨h0, hlt⟩
    have hb : X.Arguments.Bounds arguments i = true := by
      simp only [X.Arguments.Bounds, Bool.and_eq_true, decide_eq_true_eq]
      omega
    have hn : i.toNat < arguments.length := by omega
    refine ⟨arguments.get ⟨i.toNat, hn⟩, List.get?_eq_get hn, ?_, ?_⟩
    · simp [X.Arguments.Get, hb, List.get?_eq_get hn]
    · simp [X.Arguments.Peek, X.Arguments.Get, hb, List.get?_eq_get hn]

/-- Witness for C10: a one-element collection probed out of range (index
3) and in range (index 0). -/
theorem C10_witness :
    ((3 : Int) < 0 ∨ (([intArg].length : Nat) : Int) ≤ 3) ∧
    (X.Arguments.Get [intArg] 3 = (none, false) ∧
      X.Arguments.Peek [intArg] 3 = { Argument := none } ∧
      X.Arg.Is (X.Arguments.Peek [intArg] 3) "int" = false) ∧
    ((0 : Int) ≤ 0 ∧ (0 : Int) < (([intArg].length : Nat) : Int)) ∧
    (∃ a, [intArg].get? (0 : Int).toNat = some a ∧
      X.Arguments.Get [intArg] 0 = (some a, true) ∧
      X.Arguments.Peek [intArg] 0 = { Argument := some a }) :=
  ⟨Or.inr (by decide),
   (C10_indexed_access_total [intArg] 3 "int").1 (Or.inr (by decide)),
   ⟨by decide, by decide⟩,
   (C10_indexed_access_total [intArg] 0 "int").2 ⟨by decide, by decide⟩⟩

/-! ## Claim C1: the dispatch gate -/

/-- C1 (code bug): for the registered plain non-variadic function
`func Foo(a int)` the claim (and spec) require `Runner.Get("foo")` to
answer `ok = false`; the code instead answers `ok = true` with a nil
callable, because both gate results inside `Runner.Get` are assigned to
`ok` variables that shadow the returned one.  Lookup also answers
`true`, and the function is indeed not variadic. -/
theorem C1_dispatch_gate_defeated :
    (X.NewFunctions [fooMeta]).map (fun fns => X.Runner.Get { Functions := fns } "foo")
      = some (none, true) ∧
    (X.NewFunctions [fooMeta]).map (fun fns => (X.Functions.Get fns "foo").2) = some true ∧
    (X.NewFunction fooMeta).map X.Function.Variadic = some false := by
  have hq : stripQualifier (filepathBase "main.Foo") = "Foo" := by
    simp [stripQualifier, stripFirstDot, containsChar, filepathBase]
  have hfn : X.NewFunction fooMeta = some fooFn := by
    simp only [X.NewFunction, X.NewDeconstruct, fooMeta, hq]
    decide
  refine ⟨?_, ?_, ?_⟩ <;> simp [X.NewFunctions, hfn] <;> decide

/-! ## Claim C9: the `Build` example -/

/-- C9: registering `func Build(target string, force bool)` yields a
descriptor of arity 2 with parameter names `["target", "force"]` whose
rendered option string is exactly `build [target=<string>, force=<bool>]`. -/
theorem C9_build_example :
    (Cli.NewFunction buildMeta).map
      (fun fn => (fn.Arguments.length, fn.Arguments.map Cli.Argument.Name, Cli.GetFunctionString fn))
      = some (2, ["target", "force"], "build [target=<string>, force=<bool>]") := by
  have hn : Cli.normalizeName "main.Build" = "build" := by
    simp [Cli.normalizeName, Cli.camelTokens, Cli.camelTokensL, stripFirstDot, filepathBase,
      isUpperAscii]
    decide
  simp only [Cli.NewFunction, buildMeta, hn]
  decide

/-! ## Claim C4: no explicit parameter-count mismatch failure -/

/-- One-step unfolding of `x.NewArguments` on a nonempty parameter
list. -/
theorem xNewArguments_cons (reflection : List RType) (pointer : Nat) (variadic : Bool)
    (i : Nat) (p : String) (rest : List String) :
    X.NewArguments reflection pointer variadic i (p :: rest)
      = match reflection.get? i with
        | none => none
        | some inn =>
          (X.NewArguments reflection pointer variadic (i + 1) rest).map
            (X.NewArgument ((strSplitOn p ' ').headD "") inn.str i pointer variadic inn.kind :: ·) :=
  rfl

/-- `x.NewArguments` succeeds, with exactly one argument per parsed
parameter token, whenever the remaining tokens fit inside the reflected
arity; with a nonempty overrun it panics (`none`). -/
theorem xNewArguments_total (reflection : List RType) (pointer : Nat) (variadic : Bool) :
    ∀ (params : List String) (i : Nat),
      ((i + params.length ≤ reflection.length) →
        ∃ args, X.NewArguments reflection pointer variadic i params = some args ∧
          args.length = params.length) ∧
      ((params ≠ [] ∧ reflection.length < i + params.length) →
        X.NewArguments reflection pointer variadic i params = none) := by
  intro params
  induction params with
  | nil =>
    intro i
    refine ⟨fun _ => ⟨[], rfl, rfl⟩, ?_⟩
    rintro ⟨hne, -⟩
    exact absurd rfl hne
  | cons p rest ih =>
    intro i
    constructor
    · intro hle
      have hi : i < reflection.length := by
        simp only [List.length_cons] at hle
        omega
      obtain ⟨args, ha, hlen⟩ := (ih (i + 1)).1 (by
        simp only [List.length_cons] at hle
        omega)
      refine ⟨X.NewArgument ((strSplitOn p ' ').headD "") (reflection.get ⟨i, hi⟩).str i pointer
          variadic (reflection.get ⟨i, hi⟩).kind :: args, ?_, ?_⟩
      · simp [X.NewArguments, List.getElem?_eq_getElem hi, ha, List.get_eq_getElem]
      · simp [hlen]
    · rintro ⟨-, hlt⟩
      cases hg : reflection[i]? with
      | none => simp [X.NewArguments, hg]
      | some inn =>
        obtain ⟨hi, -⟩ := List.getElem?_eq_some_iff.mp hg
        cases rest with
        | nil =>
          simp only [List.length_cons, List.length_nil] at hlt
          omega
        | cons q qs =>
          have hrec := (ih (i + 1)).2 ⟨by simp, by
            simp only [List.length_cons] at hlt ⊢
            omega⟩
          rw [xNewArguments_cons]
          simp only [List.get?_eq_getElem?, hg, hrec, Option.map_none']

/-- C4 (amended): descriptor construction performs no parameter-count
consistency check.  Whenever the number of parsed name tokens is at
most the reflected arity — including zero tokens from an unparseable
line — `x.NewFunction` succeeds and silently truncates: the argument
list has exactly the parsed tokens.  Only when more tokens are parsed
than the arity does construction abort, and then by an out-of-range
reflection panic, not by an explicit `ParameterCountMismatch` failure. -/
theorem C4_amended (m : FuncMeta) :
    ((X.NewParameters m.srcLine).length ≤ m.typ.ins.length →
      ∃ fn, X.NewFunction m = some fn ∧
        fn.Length = (X.NewParameters m.srcLine).length) ∧
    (m.typ.ins.length < (X.NewParameters m.srcLine).length →
      X.NewFunction m = none) := by
  constructor
  · intro hle
    obtain ⟨args, ha, hlen⟩ :=
      (xNewArguments_total m.typ.ins m.ptr m.typ.variadic (X.NewParameters m.srcLine) 0).1
        (by omega)
    have hfn : X.NewFunction m = some
        { Arguments := args, Empty := args.length == 0, F := m.tag, Length := args.length
          Pointer := m.ptr, Name := stripQualifier (filepathBase m.qualName)
          Variadic := m.typ.variadic } := by
      simp [X.NewFunction, X.NewDeconstruct, ha]
    exact ⟨_, hfn, by simp [hlen]⟩
  · intro hlt
    have hne : X.NewParameters m.srcLine ≠ [] := by
      intro h0
      rw [h0] at hlt
      simp at hlt
    have hrec :=
      (xNewArguments_total m.typ.ins m.ptr m.typ.variadic (X.NewParameters m.srcLine) 0).2
        ⟨hne, by omega⟩
    simp [X.NewFunction, X.NewDeconstruct, hrec]

/-- Counterexample to C4 as stated: `pairMeta` parses zero parameter
names (the registration line `func Pair(` has no closed parenthesis
group) while the reflected arity is 2, yet construction SUCCEEDS — with
a silently truncated (empty) argument list — instead of failing with a
`ParameterCountMismatch`. -/
theorem C4_counterexample :
    (X.NewParameters pairMeta.srcLine).length = 0 ∧
    pairMeta.typ.ins.length = 2 ∧
    (X.NewFunction pairMeta).map (fun fn => (fn.Length, fn.Empty)) = some (0, true) := by
  refine ⟨by decide, by decide, ?_⟩
  have hq : stripQualifier (filepathBase "main.Pair") = "Pair" := by
    simp [stripQualifier, stripFirstDot, containsChar, filepathBase]
  simp only [X.NewFunction, X.NewDeconstruct, pairMeta, hq]
  decide

/-- Witness for C4 (amended) at `pairMeta`: zero parsed tokens, arity
two, construction succeeds with a zero-length argument list. -/
theorem C4_witness :
    (X.NewParameters pairMeta.srcLine).length ≤ pairMeta.typ.ins.length ∧
    (∃ fn, X.NewFunction pairMeta = some fn ∧
      fn.Length = (X.NewParameters pairMeta.srcLine).length) :=
  ⟨by decide, (C4_amended pairMeta).1 (by decide)⟩

/-! ## Claim C5: last-write-wins registration and key uniqueness -/

/-- Go map assignment preserves uniqueness of keys. -/
theorem mapSet_keys_nodup (fns : X.Functions) (k : String) (v : X.Function)
    (h : (fns.map Prod.fst).Nodup) : ((X.mapSet fns k v).map Prod.fst).Nodup := by
  unfold X.mapSet
  split
  · have hkeys : (fns.map (fun p => if p.1 == k then (k, v) else p)).map Prod.fst
        = fns.map Prod.fst := by
      rw [List.map_map]
      apply List.map_congr_left
      intro p _
      by_cases hp : p.1 == k
      · simp only [Function.comp_apply, if_pos hp]
        exact (eq_of_beq hp).symm
      · simp only [Function.comp_apply, if_neg hp]
    rw [hkeys]
    exact h
  · rename_i hany
    have hnot : k ∉ fns.map Prod.fst := by
      intro hk
      apply hany
      obtain ⟨p, hp, hpk⟩ := List.mem_map.mp hk
      exact List.any_eq_true.mpr ⟨p, hp, by simp [hpk]⟩
    simp only [List.map_append, List.map_cons, List.map_nil]
    exact List.Nodup.append h (List.nodup_singleton k)
      (by simpa [List.disjoint_right] using hnot)

/-- The registration fold keeps registry keys unique from any
accumulator with unique keys. -/
theorem xRegisterFold_nodup (metas : List FuncMeta) :
    ∀ (acc : X.Functions), (acc.map Prod.fst).Nodup →
      ∀ fns, List.foldlM
          (fun functions m => (X.NewFunction m).map
            (fun n => X.mapSet functions (upperStr n.Name) n)) acc metas = some fns →
        (fns.map Prod.fst).Nodup := by
  induction metas with
  | nil =>
    intro acc hacc fns h
    simp only [List.foldlM_nil, Option.pure_def, Option.some_inj] at h
    exact h ▸ hacc
  | cons m ms ih =>
    intro acc hacc fns h
    rw [List.foldlM_cons] at h
    cases hm : X.NewFunction m with
    | none => rw [hm] at h; simp at h
    | some n =>
      rw [hm] at h
      simp only [Option.map_some', Option.some_bind] at h
      exact ih (X.mapSet acc (upperStr n.Name) n)
        (mapSet_keys_nodup acc (upperStr n.Name) n hacc) fns h

/-- C5: registering two functions whose stripped names normalise (via
`strings.ToUpper`) to the same registry key leaves exactly one entry,
bound to that key and equal to the SECOND registration's descriptor;
and every successfully built registry has pairwise-distinct keys. -/
theorem C5_last_write_wins :
    (∀ (m1 m2 : FuncMeta) (n1 n2 : X.Function),
      X.NewFunction m1 = some n1 → X.NewFunction m2 = some n2 →
      upperStr n1.Name = upperStr n2.Name →
      X.NewFunctions [m1, m2] = some [(upperStr n2.Name, n2)]) ∧
    (∀ (metas : List FuncMeta) (fns : X.Functions),
      X.NewFunctions metas = some fns → (fns.map Prod.fst).Nodup) := by
  constructor
  · intro m1 m2 n1 n2 h1 h2 hname
    have e1 : X.mapSet [] (upperStr n1.Name) n1 = [(upperStr n1.Name, n1)] := by
      simp [X.mapSet]
    have e2 : X.mapSet [(upperStr n1.Name, n1)] (upperStr n2.Name) n2
        = [(upperStr n2.Name, n2)] := by
      simp [X.mapSet, hname]
    simp only [X.NewFunctions, List.foldlM_cons, List.foldlM_nil, h1, h2,
      Option.map_some', Option.bind_eq_bind, Option.some_bind, Option.pure_def, e1, e2]
  · intro metas fns h
    exact xRegisterFold_nodup metas [] (by simp) fns h

/-- Witness for C5: `main.Dup` and `other.Dup` both normalise to the
key `DUP`; registering both leaves exactly the second descriptor. -/
theorem C5_witness :
    X.NewFunction dupMeta1 = some dupFn1 ∧
    X.NewFunction dupMeta2 = some dupFn2 ∧
    upperStr dupFn1.Name = upperStr dupFn2.Name ∧
    X.NewFunctions [dupMeta1, dupMeta2] = some [(upperStr dupFn2.Name, dupFn2)] ∧
    ([(upperStr dupFn2.Name, dupFn2)].map Prod.fst).Nodup := by
  have hq1 : stripQualifier (filepathBase "main.Dup") = "Dup" := by
    simp [stripQualifier, stripFirstDot, containsChar, filepathBase]
  have hq2 : stripQualifier (filepathBase "other.Dup") = "Dup" := by
    simp [stripQualifier, stripFirstDot, containsChar, filepathBase]
  have h1 : X.NewFunction dupMeta1 = some dupFn1 := by
    simp only [X.NewFunction, X.NewDeconstruct, dupMeta1, hq1]
    decide
  have h2 : X.NewFunction dupMeta2 = some dupFn2 := by
    simp only [X.NewFunction, X.NewDeconstruct, dupMeta2, hq2]
    decide
  exact ⟨h1, h2, by decide,
    C5_last_write_wins.1 dupMeta1 dupMeta2 dupFn1 dupFn2 h1 h2 (by decide),
    C5_last_write_wins.2 [dupMeta1, dupMeta2] [(upperStr dupFn2.Name, dupFn2)]
      (C5_last_write_wins.1 dupMeta1 dupMeta2 dupFn1 dupFn2 h1 h2 (by decide))⟩

/-! ## Claim C2: placement of the variadic-slot flag -/

/-- Every argument built by `cli.NewFunction`'s loop carries the
function-level variadic flag. -/
theorem argumentsLoop_varadict (t : ReflectType) (ptr : Nat) (params : List String) :
    ∀ (k i : Nat) (args : List Cli.Argument),
      Cli.argumentsLoop t ptr params i k = some args →
      ∀ arg ∈ args, arg.Varadict = t.variadic := by
  intro k
  induction k with
  | zero =>
    intro i args h arg ha
    simp only [Cli.argumentsLoop, Option.some_inj] at h
    subst h
    simp at ha
  | succ k ih =>
    intro i args h arg ha
    simp only [Cli.argumentsLoop] at h
    cases hp : params.get? i with
    | none => rw [hp] at h; simp at h
    | some p =>
      rw [hp] at h
      cases hin : t.ins[i]? with
      | none => simp [Cli.NewArgument, hin] at h
      | some inn =>
        simp only [Cli.NewArgument, List.get?_eq_getElem?, hin, Option.map_some',
          Option.some_bind] at h
        obtain ⟨as, has, hargs⟩ := Option.map_eq_some'.mp h
        subst hargs
        rcases List.mem_cons.mp ha with h1 | h1
        · subst h1; rfl
        · exact ih (i + 1) as has arg h1

/-- C2 (amended): the `isVariadicSlot` flag of every constructed
argument descriptor records the variadicity of the WHOLE function: for
a variadic function every argument (not only the last) carries the
flag, and for a non-variadic function none does. -/
theorem C2_amended (m : FuncMeta) (fn : Cli.Function) (h : Cli.NewFunction m = some fn) :
    fn.Varadict = m.typ.variadic ∧
    ∀ arg ∈ fn.Arguments, arg.Varadict = m.typ.variadic := by
  unfold Cli.NewFunction at h
  cases hg : findParenGroup m.srcLine with
  | none =>
    rw [hg] at h
    simp only [Option.map_some', Option.some_inj] at h
    subst h
    exact ⟨rfl, by simp⟩
  | some g =>
    rw [hg] at h
    obtain ⟨args, hargs, hfn⟩ := Option.map_eq_some'.mp h
    subst hfn
    exact ⟨rfl, argumentsLoop_varadict m.typ m.ptr (strSplitOn g ',')
      m.typ.ins.length 0 args hargs⟩

/-- Counterexample to C2 as stated: for the two-parameter variadic
function `func Run(a int, opts ...interface\x7b\x7d)` BOTH argument
descriptors carry the variadic flag, so the non-final argument at
position 0 has `isVariadicSlot = true` and two descriptors (not at most
one) carry it. -/
theorem C2_counterexample :
    Cli.NewFunction runMeta = some runFn ∧
    runFn.Varadict = true ∧
    runFn.Arguments.length = 2 ∧
    runFn.Arguments.map Cli.Argument.Varadict = [true, true] ∧
    runFn.Arguments.map Cli.Argument.Position = [0, 1] := by
  have hn : Cli.normalizeName "main.Run" = "run" := by
    simp [Cli.normalizeName, Cli.camelTokens, Cli.camelTokensL, stripFirstDot, filepathBase,
      isUpperAscii]
    decide
  refine ⟨?_, by decide, by decide, by decide, by decide⟩
  simp only [Cli.NewFunction, runMeta, hn]
  decide

/-- Witness for C2 (amended) at `runMeta`. -/
theorem C2_witness :
    Cli.NewFunction runMeta = some runFn ∧
    (runFn.Varadict = runMeta.typ.variadic ∧
      ∀ arg ∈ runFn.Arguments, arg.Varadict = runMeta.typ.variadic) := by
  have hn : Cli.normalizeName "main.Run" = "run" := by
    simp [Cli.normalizeName, Cli.camelTokens, Cli.camelTokensL, stripFirstDot, filepathBase,
      isUpperAscii]
    decide
  have h : Cli.NewFunction runMeta = some runFn := by
    simp only [Cli.NewFunction, runMeta, hn]
    decide
  exact ⟨h, C2_amended runMeta runFn h⟩

/-! ## Rendering lemmas for the usage formatter -/

theorem getLastD_listMem {α : Type} (l : List α) (d : α) (h : l ≠ []) : l.getLastD d ∈ l := by
  rw [List.getLastD_eq_getLast?, List.getLast?_eq_getLast l h]
  simp [List.getLast_mem]

theorem contLine_spaces (offset : Nat) (sentence : List String) :
    contLine offset sentence = spaces (offset + 1) ++ joinWith " " sentence := by
  simp only [contLine]
  rw [spaces_succ]

theorem newline_contLine (offset : Nat) (sentence : List String) (t : String) :
    t ++ ("\n " ++ spaces offset ++ joinWith " " sentence)
      = t ++ "\n" ++ contLine offset sentence := by
  apply String.ext
  simp [contLine, String.data_append]

theorem joinWith_cons_merge (a b : String) (l : List String) :
    joinWith "\n" ((a ++ "\n" ++ b) :: l) = a ++ "\n" ++ joinWith "\n" (b :: l) := by
  cases l with
  | nil => simp [joinWith]
  | cons c cs =>
    rw [joinWith_cons _ _ _ (by simp), joinWith_cons _ b _ (by simp)]
    simp [String.append_assoc]

theorem wrapTemplate_foldl (offset : Nat) (rest : List (List String)) :
    ∀ t0 : String,
      rest.foldl (fun t sentence => t ++ ("\n " ++ spaces offset ++ joinWith " " sentence)) t0
        = joinWith "\n" (t0 :: rest.map (contLine offset)) := by
  induction rest with
  | nil => intro t0; rfl
  | cons s ss ih =>
    intro t0
    simp only [List.foldl_cons, List.map_cons]
    rw [newline_contLine, ih (t0 ++ "\n" ++ contLine offset s), joinWith_cons_merge,
      joinWith_cons "\n" t0 _ (by simp)]

theorem appendLastAnn_ne_nil (x : String) (a : String × List String)
    (L : List (String × List String)) : appendLastAnn (a :: L) x ≠ [] := by
  cases L with
  | nil => obtain ⟨a1, a2⟩ := a; simp [appendLastAnn]
  | cons b L2 => simp [appendLastAnn]

theorem mem_appendLastAnn (x : String) :
    ∀ (L : List (String × List String)), ∀ q ∈ appendLastAnn L x,
      ∃ q0 ∈ L, q.2 = q0.2 ∧ (q.1 = q0.1 ∨ q.1 = q0.1 ++ x) := by
  intro L
  induction L with
  | nil => intro q hq; simp [appendLastAnn] at hq
  | cons a L ih =>
    cases L with
    | nil =>
      obtain ⟨a1, a2⟩ := a
      intro q hq
      simp only [appendLastAnn, List.mem_singleton] at hq
      subst hq
      exact ⟨(a1, a2), by simp, rfl, Or.inr rfl⟩
    | cons b L2 =>
      intro q hq
      simp only [appendLastAnn, List.mem_cons] at hq
      rcases hq with hqa | hq
      · exact ⟨a, by simp, by rw [hqa], Or.inl (by rw [hqa])⟩
      · obtain ⟨q0, hq0, hq2, hq3⟩ := ih q hq
        exact ⟨q0, List.mem_cons_of_mem a hq0, hq2, hq3⟩

theorem joinWith_map_fst_appendLastAnn (x : String) :
    ∀ (L : List (String × List String)), L ≠ [] →
      joinWith "\n" ((appendLastAnn L x).map Prod.fst)
        = joinWith "\n" (L.map Prod.fst) ++ x := by
  intro L
  induction L with
  | nil => intro h; exact absurd rfl h
  | cons a L ih =>
    intro _
    cases L with
    | nil =>
      obtain ⟨a1, a2⟩ := a
      simp [appendLastAnn, joinWith]
    | cons b L2 =>
      simp only [appendLastAnn, List.map_cons]
      have hne : (appendLastAnn (b :: L2) x).map Prod.fst ≠ [] := by
        simp [appendLastAnn_ne_nil]
      rw [joinWith_cons _ _ _ hne, ih (by simp)]
      rw [joinWith_cons "\n" a.1 (b.1 :: List.map Prod.fst L2) (by simp)]
      simp [String.append_assoc]

theorem wrapFunction_eq_joinWith (name : String) (functions : List Cli.Function) :
    Cli.WrapFunction name functions = joinWith "\n" (optLines name functions) := by
  simp only [Cli.WrapFunction, optLines, optLinesAnn, optAnnCore]
  rw [wrapTemplate_foldl, joinWith_map_fst_appendLastAnn "]" _ (by simp)]
  congr 1
  simp only [List.map_cons, List.map_map]
  congr 2

theorem joinWith_doc_split (A B : List String) (hA : A ≠ []) (hB : B ≠ []) :
    joinWith "\n" (A ++ [""] ++ B) = joinWith "\n" A ++ "\n\n" ++ joinWith "\n" B := by
  rw [List.append_assoc, joinWith_append "\n" A ([""] ++ B) hA (by simp),
    List.singleton_append, joinWith_cons "\n" "" B hB]
  apply String.ext
  simp [String.data_append]

/-! ## Invariants of the option-wrap loop -/

theorem wrapStepF_inv (offset : Nat) (acc : List (List String)) (r0 : String)
    (h1 : acc ≠ [])
    (h2 : ∀ p ∈ acc, 2 ≤ p.length → (joinWith " " p).length + offset ≤ Cli.lineLength)
    (h3 : ∀ p ∈ acc.tail, p ≠ [])
    (h4 : ∀ p ∈ acc, ∀ t ∈ p, ∃ r, t = "[" ++ r) :
    Cli.wrapStepF offset acc ("[" ++ r0) ≠ [] ∧
    (∀ p ∈ Cli.wrapStepF offset acc ("[" ++ r0), 2 ≤ p.length →
      (joinWith " " p).length + offset ≤ Cli.lineLength) ∧
    (∀ p ∈ (Cli.wrapStepF offset acc ("[" ++ r0)).tail, p ≠ []) ∧
    (∀ p ∈ Cli.wrapStepF offset acc ("[" ++ r0), ∀ t ∈ p, ∃ r, t = "[" ++ r) := by
  simp only [Cli.wrapStepF]
  split
  · -- overflow: a fresh paragraph holding only the new option
    rename_i hc
    refine ⟨by simp, ?_, ?_, ?_⟩
    · intro p hp h2p
      rcases List.mem_append.mp hp with hpo | hpn
      · exact h2 p hpo h2p
      · simp only [List.mem_singleton] at hpn
        subst hpn
        simp at h2p
    · cases acc with
      | nil => exact absurd rfl h1
      | cons a as =>
        intro p hp
        have hp2 : p ∈ as ∨ p = ["[" ++ r0] := by simpa using hp
        rcases hp2 with hpo | hpn
        · exact h3 p (by simpa using hpo)
        · subst hpn
          simp
    · intro p hp t ht
      rcases List.mem_append.mp hp with hpo | hpn
      · exact h4 p hpo t ht
      · simp only [List.mem_singleton] at hpn
        subst hpn
        simp only [List.mem_singleton] at ht
        exact ⟨r0, ht⟩
  · -- no overflow: the option joins the last paragraph
    rename_i hc
    have hcur : acc.getLastD [] ∈ acc := getLastD_listMem acc [] h1
    refine ⟨by simp, ?_, ?_, ?_⟩
    · intro p hp h2p
      rcases List.mem_append.mp hp with hpo | hpn
      · exact h2 p (List.dropLast_subset acc hpo) h2p
      · simp only [List.mem_singleton] at hpn
        subst hpn
        by_cases hnil : acc.getLastD [] = []
        · rw [hnil] at h2p
          simp at h2p
        · have hj := joinWith_concat " " (acc.getLastD []) ("[" ++ r0) hnil
          rw [hj]
          simp only [not_le] at hc
          simp only [String.length_append,
            show (" " : String).length = 1 from rfl,
            show ("[" : String).length = 1 from rfl] at hc ⊢
          omega
    · cases acc with
      | nil => exact absurd rfl h1
      | cons a as =>
        cases as with
        | nil =>
          intro p hp
          simp only [List.dropLast_single, List.nil_append, List.tail_cons] at hp
          simp at hp
        | cons b bs =>
          intro p hp
          have htail : ((a :: b :: bs).dropLast ++ [(a :: b :: bs).getLastD [] ++ ["[" ++ r0]]).tail
              = (b :: bs).dropLast ++ [(a :: b :: bs).getLastD [] ++ ["[" ++ r0]] := by
            simp [List.dropLast]
          rw [htail] at hp
          rcases List.mem_append.mp hp with hpo | hpn
          · exact h3 p (List.dropLast_subset (b :: bs) hpo)
          · simp only [List.mem_singleton] at hpn
            subst hpn
            simp
    · intro p hp t ht
      rcases List.mem_append.mp hp with hpo | hpn
      · exact h4 p (List.dropLast_subset acc hpo) t ht
      · simp only [List.mem_singleton] at hpn
        subst hpn
        rcases List.mem_append.mp ht with hto | htn
        · exact h4 _ hcur t hto
        · simp only [List.mem_singleton] at htn
          exact ⟨r0, htn⟩

theorem wrapParagraphs_inv (offset : Nat) (functions : List Cli.Function) :
    Cli.wrapParagraphs offset functions ≠ [] ∧
    (∀ p ∈ Cli.wrapParagraphs offset functions, 2 ≤ p.length →
      (joinWith " " p).length + offset ≤ Cli.lineLength) ∧
    (∀ p ∈ (Cli.wrapParagraphs offset functions).tail, p ≠ []) ∧
    (∀ p ∈ Cli.wrapParagraphs offset functions, ∀ t ∈ p, ∃ r, t = "[" ++ r) := by
  have main : ∀ (fs : List Cli.Function) (acc : List (List String)),
      acc ≠ [] →
      (∀ p ∈ acc, 2 ≤ p.length → (joinWith " " p).length + offset ≤ Cli.lineLength) →
      (∀ p ∈ acc.tail, p ≠ []) →
      (∀ p ∈ acc, ∀ t ∈ p, ∃ r, t = "[" ++ r) →
      (fs.foldl (fun ps function =>
          Cli.wrapStepF offset ps ("[" ++ Cli.GetFunctionString function ++ "]")) acc ≠ [] ∧
       (∀ p ∈ fs.foldl (fun ps function =>
          Cli.wrapStepF offset ps ("[" ++ Cli.GetFunctionString function ++ "]")) acc,
          2 ≤ p.length → (joinWith " " p).length + offset ≤ Cli.lineLength) ∧
       (∀ p ∈ (fs.foldl (fun ps function =>
          Cli.wrapStepF offset ps ("[" ++ Cli.GetFunctionString function ++ "]")) acc).tail,
          p ≠ []) ∧
       (∀ p ∈ fs.foldl (fun ps function =>
          Cli.wrapStepF offset ps ("[" ++ Cli.GetFunctionString function ++ "]")) acc,
          ∀ t ∈ p, ∃ r, t = "[" ++ r)) := by
    intro fs
    induction fs with
    | nil =>
      intro acc ha1 ha2 ha3 ha4
      simpa using ⟨ha1, ha2, ha3, ha4⟩
    | cons f fs ih =>
      intro acc ha1 ha2 ha3 ha4
      simp only [List.foldl_cons]
      rw [show ("[" ++ Cli.GetFunctionString f ++ "]")
          = "[" ++ (Cli.GetFunctionString f ++ "]") from String.append_assoc _ _ _]
      obtain ⟨s1, s2, s3, s4⟩ :=
        wrapStepF_inv offset acc (Cli.GetFunctionString f ++ "]") ha1 ha2 ha3 ha4
      exact ih _ s1 s2 s3 s4
  refine main functions [[]] (by simp) ?_ (by simp) ?_
  · intro p hp h2p
    simp only [List.mem_singleton] at hp
    subst hp
    simp at h2p
  · intro p hp t ht
    simp only [List.mem_singleton] at hp
    subst hp
    simp at ht

/-! ## The description wrap as a list of lines -/

theorem wrapFold_agree (ws : List String) :
    ∀ (done : List String) (cur : String) (k : Nat),
      ws.foldl Cli.wrapStep (joinLines done ++ cur, k)
        = (joinLines (ws.foldl wrapStepL (done, cur, k)).1
             ++ (ws.foldl wrapStepL (done, cur, k)).2.1,
           (ws.foldl wrapStepL (done, cur, k)).2.2) := by
  induction ws with
  | nil => intro done cur k; rfl
  | cons w ws ih =>
    intro done cur k
    simp only [List.foldl_cons]
    by_cases hc : Cli.lineLength ≤ k + w.length + 1
    · have e1 : Cli.wrapStep (joinLines done ++ cur, k) w
          = (joinLines (done ++ [cur ++ w ++ " "]) ++ "", 0) := by
        simp only [Cli.wrapStep, hc, if_pos, joinLines_append, joinLines]
        apply Prod.ext
        · apply String.ext
          simp [String.data_append]
        · rfl
      have e2 : wrapStepL (done, cur, k) w = (done ++ [cur ++ w ++ " "], "", 0) := by
        simp [wrapStepL, hc]
      rw [e1, e2, ih]
    · have e1 : Cli.wrapStep (joinLines done ++ cur, k) w
          = (joinLines done ++ (cur ++ w ++ " "), k + w.length + 1) := by
        simp only [Cli.wrapStep, hc, if_neg, not_false_iff]
        apply Prod.ext
        · apply String.ext
          simp [String.data_append]
        · rfl
      have e2 : wrapStepL (done, cur, k) w = (done, cur ++ w ++ " ", k + w.length + 1) := by
        simp [wrapStepL, hc]
      rw [e1, e2, ih]

theorem wrapDescription_eq_joinWith (paragraph : String) :
    Cli.WrapDescription paragraph = joinWith "\n" (descLines paragraph) := by
  have h := wrapFold_agree (strSplitOn paragraph ' ') [] "" 0
  have hinit : (joinLines [] ++ "", 0) = (("" : String), 0) := by
    apply Prod.ext
    · simp [joinLines]
    · rfl
  rw [hinit] at h
  simp only [Cli.WrapDescription, h, descLines, descTriple]
  rw [joinWith_newline_concat]

theorem descFold_inv (ws : List String) (hws : ∀ w ∈ ws, containsChar w ' ' = false) :
    ∀ (done : List String) (cur : String) (k : Nat),
      cur.length = k → k + 1 ≤ Cli.lineLength →
      (∀ ℓ ∈ done, ℓ.length + 1 ≤ Cli.lineLength ∨
        ∃ pre w, ℓ = pre ++ (w ++ " ") ∧ pre.length + 1 ≤ Cli.lineLength ∧
          containsChar w ' ' = false) →
      ((ws.foldl wrapStepL (done, cur, k)).2.1.length = (ws.foldl wrapStepL (done, cur, k)).2.2 ∧
       (ws.foldl wrapStepL (done, cur, k)).2.2 + 1 ≤ Cli.lineLength ∧
       (∀ ℓ ∈ (ws.foldl wrapStepL (done, cur, k)).1,
         ℓ.length + 1 ≤ Cli.lineLength ∨
         ∃ pre w, ℓ = pre ++ (w ++ " ") ∧ pre.length + 1 ≤ Cli.lineLength ∧
           containsChar w ' ' = false)) := by
  induction ws with
  | nil =>
    intro done cur k hk hk79 hdone
    exact ⟨hk, hk79, hdone⟩
  | cons w ws ih =>
    intro done cur k hk hk79 hdone
    have hw : containsChar w ' ' = false := hws w (List.mem_cons_self w ws)
    have hws2 : ∀ v ∈ ws, containsChar v ' ' = false :=
      fun v hv => hws v (List.mem_cons_of_mem w hv)
    simp only [List.foldl_cons]
    by_cases hc : Cli.lineLength ≤ k + w.length + 1
    · have e2 : wrapStepL (done, cur, k) w = (done ++ [cur ++ w ++ " "], "", 0) := by
        simp [wrapStepL, hc]
      rw [e2]
      refine ih hws2 _ _ _ rfl (by simp [Cli.lineLength]) ?_
      intro ℓ hl
      rcases List.mem_append.mp hl with hlo | hln
      · exact hdone ℓ hlo
      · simp only [List.mem_singleton] at hln
        subst hln
        refine Or.inr ⟨cur, w, by rw [String.append_assoc], ?_, hw⟩
        rw [hk]
        exact hk79
    · have e2 : wrapStepL (done, cur, k) w = (done, cur ++ w ++ " ", k + w.length + 1) := by
        simp [wrapStepL, hc]
      rw [e2]
      refine ih hws2 _ _ _ ?_ ?_ hdone
      · simp only [String.length_append, show (" " : String).length = 1 from rfl, hk]
      · omega

theorem spaces_length (n : Nat) : (spaces n).length = n := by
  simp [spaces, length_strMk]

theorem head_appendLastAnn (x : String) (a : String × List String)
    (L : List (String × List String)) :
    ((appendLastAnn (a :: L) x).map Prod.fst).headD "" = a.1 ∨
    ((appendLastAnn (a :: L) x).map Prod.fst).headD "" = a.1 ++ x := by
  cases L with
  | nil =>
    obtain ⟨a1, a2⟩ := a
    right
    simp [appendLastAnn]
  | cons b L2 =>
    left
    simp [appendLastAnn]

theorem optAnnCore_bound (header : String) (ps : List (List String))
    (hbound : ∀ p ∈ ps, 2 ≤ p.length → (joinWith " " p).length + header.length ≤ Cli.lineLength) :
    ∀ q ∈ optAnnCore header ps, 2 ≤ q.2.length → q.1.length ≤ 81 := by
  intro q hq h2
  simp only [optAnnCore, List.mem_cons, List.mem_map] at hq
  rcases hq with rfl | ⟨s, hs, rfl⟩
  · have hne : ps ≠ [] := by
      intro h0
      rw [h0] at h2
      simp at h2
    have hmem : ps.headD [] ∈ ps := by
      cases ps with
      | nil => exact absurd rfl hne
      | cons a as => exact List.mem_cons_self a as
    have hb := hbound (ps.headD []) hmem h2
    simp only [Cli.lineLength] at hb
    simp only [String.length_append, show (" [" : String).length = 2 from rfl]
    omega
  · have hb := hbound s (List.mem_of_mem_tail hs) h2
    simp only [Cli.lineLength] at hb
    simp only [contLine, String.length_append, spaces_length,
      show (" " : String).length = 1 from rfl]
    omega

/-! ## Claim C8: shape of the option-wrap block -/

/-- C8 (amended): the option block renders as newline-joined lines; the
first line begins with the prefix `usage: <programName> [`, every
continuation line is indented with `offset + 1` spaces — ONE MORE than
the length `offset` of `usage: <programName>`, because of the literal
space in the `"\n %s%s"` format string — followed immediately by an
option token, and the assembled block ends with a closing `]`. -/
theorem C8_amended (name : String) (functions : List Cli.Function) :
    Cli.WrapFunction name functions = joinWith "\n" (optLines name functions) ∧
    (∃ r, (optLines name functions).headD "" = ("usage: " ++ name) ++ (" [" ++ r)) ∧
    (∀ ℓ ∈ (optLines name functions).tail,
      ∃ r, ℓ = spaces (("usage: " ++ name).length + 1) ++ ("[" ++ r)) ∧
    (∃ r, Cli.WrapFunction name functions = r ++ "]") := by
  refine ⟨wrapFunction_eq_joinWith name functions, ?_, ?_, ⟨_, rfl⟩⟩
  · rcases head_appendLastAnn "]"
        ("usage: " ++ name ++ " ["
            ++ joinWith " " ((Cli.wrapParagraphs ("usage: " ++ name).length functions).headD []),
          (Cli.wrapParagraphs ("usage: " ++ name).length functions).headD [])
        ((Cli.wrapParagraphs ("usage: " ++ name).length functions).tail.map
          (fun s => (contLine ("usage: " ++ name).length s, s))) with h | h
    · exact ⟨_, by rw [optLines, optLinesAnn, optAnnCore, h, String.append_assoc]⟩
    · exact ⟨_, by rw [optLines, optLinesAnn, optAnnCore, h, String.append_assoc,
        String.append_assoc]⟩
  · intro ℓ hl
    obtain ⟨-, -, htail, htok⟩ := wrapParagraphs_inv ("usage: " ++ name).length functions
    have hjoin : ∀ (s : List String), s ≠ [] → (∀ t ∈ s, ∃ r, t = "[" ++ r) →
        ∃ r, joinWith " " s = "[" ++ r := by
      intro s hs htoks
      cases s with
      | nil => exact absurd rfl hs
      | cons t ts =>
        obtain ⟨r, hr⟩ := htoks t (List.mem_cons_self t ts)
        cases ts with
        | nil => exact ⟨r, by simpa [joinWith] using hr⟩
        | cons u us =>
          rw [joinWith_cons " " t _ (by simp), hr, String.append_assoc, String.append_assoc]
          exact ⟨_, rfl⟩
    simp only [optLines, optLinesAnn, optAnnCore] at hl
    cases hrest : (Cli.wrapParagraphs ("usage: " ++ name).length functions).tail.map
        (fun s => (contLine ("usage: " ++ name).length s, s)) with
    | nil =>
      rw [hrest] at hl
      simp [appendLastAnn] at hl
    | cons r1 rs =>
      rw [hrest] at hl
      simp only [appendLastAnn, List.map_cons, List.tail_cons] at hl
      obtain ⟨q, hq, hq1⟩ := List.mem_map.mp hl
      obtain ⟨q0, hq0, hq2, hq3⟩ := mem_appendLastAnn "]" (r1 :: rs) q hq
      have hq0m : q0 ∈ (Cli.wrapParagraphs ("usage: " ++ name).length functions).tail.map
          (fun s => (contLine ("usage: " ++ name).length s, s)) := by
        rw [hrest]
        exact hq0
      obtain ⟨s, hsmem, hq0eq⟩ := List.mem_map.mp hq0m
      have hsne : s ≠ [] := htail s hsmem
      have hstok : ∀ t ∈ s, ∃ r, t = "[" ++ r :=
        fun t ht => htok s (List.mem_of_mem_tail hsmem) t ht
      obtain ⟨rj, hrj⟩ := hjoin s hsne hstok
      have hcl : q0.1 = spaces (("usage: " ++ name).length + 1) ++ ("[" ++ rj) := by
        rw [← hq0eq]
        simp only [contLine_spaces, hrj]
      rcases hq3 with h | h
      · exact ⟨rj, by rw [← hq1, h, hcl]⟩
      · refine ⟨rj ++ "]", ?_⟩
        rw [← hq1, h, hcl, String.append_assoc, String.append_assoc]

/-- Counterexample to C8 as stated: for program name `go` the prefix
offset (the length of `usage: go`) is 9, but the continuation line of
the rendered option block carries 10 leading spaces, one more than the
claimed `offset`-space indentation. -/
theorem C8_counterexample :
    ("usage: go" : String).length = 9 ∧
    ((Cli.NewFunction aMeta).bind fun f1 => (Cli.NewFunction bMeta).map fun f2 =>
      (((strSplitOn (Cli.WrapFunction "go" [f1, f2]) '\n').getD 1 "").data.takeWhile
        (fun c => c = ' ')).length) = some 10 := by
  refine ⟨by decide, ?_⟩
  have ha : Cli.NewFunction aMeta = some aFn := by
    have hn : Cli.normalizeName "main.A" = "a" := by
      simp [Cli.normalizeName, Cli.camelTokens, Cli.camelTokensL, stripFirstDot, filepathBase,
        isUpperAscii]
      decide
    simp only [Cli.NewFunction, aMeta, hn]
    decide
  have hb : Cli.NewFunction bMeta = some bFn := by
    have hn : Cli.normalizeName
        "main.Bbbbbbbbbbbbbbbbbbbbbbbbbbbbbbbbbbbbbbbbbbbbbbbbbbbbbbbbbbbbbbbbbbbbbb" = "bbbbbbbbbbbbbbbbbbbbbbbbbbbbbbbbbbbbbbbbbbbbbbbbbbbbbbbbbbbbbbbbbbbbbb" := by
      simp [Cli.normalizeName, Cli.camelTokens, Cli.camelTokensL, stripFirstDot, filepathBase,
        isUpperAscii]
      decide
    simp only [Cli.NewFunction, bMeta, hn]
    decide
  rw [ha, hb]
  simp only [Option.some_bind, Option.map_some']
  decide

/-- Witness for C8 (amended): the continuation line of
`WrapFunction "go" [aFn, bFn]` starts with 10 = 9 + 1 spaces and an
option token. -/
theorem C8_witness :
    ("          [--bbbbbbbbbbbbbbbbbbbbbbbbbbbbbbbbbbbbbbbbbbbbbbbbbbbbbbbbbbbbbbbbbbbbbb]]"
        ∈ (optLines "go" [aFn, bFn]).tail) ∧
    (∃ r, ("          [--bbbbbbbbbbbbbbbbbbbbbbbbbbbbbbbbbbbbbbbbbbbbbbbbbbbbbbbbbbbbbbbbbbbbbb]]" : String)
        = spaces (("usage: " ++ "go").length + 1) ++ ("[" ++ r)) :=
  ⟨by decide, (C8_amended "go" [aFn, bFn]).2.2.1 _ (by decide)⟩

/-! ## Claim C3: line lengths of the rendered usage document -/

/-- C3 (amended): the rendered usage document is the newline-join of
the description lines, a blank separator line, and the option lines;
tokens are never split (each line is a space-join of whole words or
whole option tokens by the very decomposition below).  A description
line either fits in 78 columns or exceeds the budget only by its final
word: removing that word and its trailing space leaves at most 78
columns (so full lines may exceed 79).  An option line holding two or
more option tokens has length at most 82; option lines holding at most
one token (and description lines whose final word is itself over-long)
are unbounded. -/
theorem C3_amended (name description : String) (functions : List Cli.Function) :
    Cli.WrapUse name description functions
      = joinWith "\n" (descLines description ++ [""] ++ optLines name functions) ∧
    (∀ ℓ ∈ descLines description, ℓ.length ≤ 78 ∨
      ∃ pre w, ℓ = pre ++ (w ++ " ") ∧ pre.length ≤ 78 ∧ containsChar w ' ' = false) ∧
    (∀ pr ∈ optLinesAnn name functions, 2 ≤ pr.2.length → pr.1.length ≤ 82) := by
  have hdescne : descLines description ≠ [] := by simp [descLines]
  have hoptne : optLines name functions ≠ [] := by
    simp only [optLines, optLinesAnn, optAnnCore, ne_eq, List.map_eq_nil_iff]
    exact appendLastAnn_ne_nil _ _ _
  refine ⟨?_, ?_, ?_⟩
  · rw [joinWith_doc_split _ _ hdescne hoptne, ← wrapDescription_eq_joinWith,
      ← wrapFunction_eq_joinWith]
    rfl
  · intro ℓ hl
    obtain ⟨hcl, hk79, hdlines⟩ := descFold_inv (strSplitOn description ' ')
      (mem_strSplitOn_not_sep description ' ') [] "" 0 rfl (by simp [Cli.lineLength]) (by simp)
    simp only [descLines, descTriple] at hl
    rcases List.mem_append.mp hl with hlo | hln
    · rcases hdlines ℓ hlo with h | ⟨pre, w, hw1, hw2, hw3⟩
      · left
        simp only [Cli.lineLength] at h
        omega
      · right
        refine ⟨pre, w, hw1, ?_, hw3⟩
        simp only [Cli.lineLength] at hw2
        omega
    · simp only [List.mem_singleton] at hln
      subst hln
      left
      rw [hcl]
      simp only [Cli.lineLength] at hk79
      omega
  · intro pr hpr h2
    obtain ⟨-, hbound, -, -⟩ := wrapParagraphs_inv ("usage: " ++ name).length functions
    simp only [optLinesAnn] at hpr
    obtain ⟨q0, hq0, hq2, hq3⟩ := mem_appendLastAnn "]" _ pr hpr
    have hb := optAnnCore_bound ("usage: " ++ name) _ hbound q0 hq0 (hq2 ▸ h2)
    rcases hq3 with h | h
    · rw [h]
      omega
    · rw [h]
      simp only [String.length_append, show ("]" : String).length = 1 from rfl]
      omega

/-- Counterexample to C3 as stated: with program name `go`, description
`longDesc` and no registered functions, the first rendered line of the
usage document has length 88 > 79 although every one of its
space-separated tokens has length at most 10 — the line is not a single
over-long word, so the claimed 79-column bound fails. -/
theorem C3_counterexample :
    ((strSplitOn (Cli.WrapUse "go" longDesc []) '\n').headD "").length = 88 ∧
    ((strSplitOn ((strSplitOn (Cli.WrapUse "go" longDesc []) '\n').headD "") ' ').all
      (fun w => w.length ≤ 10)) = true :=
  ⟨by decide, by decide⟩

/-- Witness for C3 (amended) at concrete inputs: the document equation,
one description line of the wrap of "a", and the two-token option line
of two registered one-letter functions. -/
theorem C3_witness :
    Cli.WrapUse "go" "a" [aFn, aFn]
      = joinWith "\n" (descLines "a" ++ [""] ++ optLines "go" [aFn, aFn]) ∧
    ("a " ∈ descLines "a") ∧
    (("a " : String).length ≤ 78 ∨
      ∃ pre w, ("a " : String) = pre ++ (w ++ " ") ∧ pre.length ≤ 78 ∧
        containsChar w ' ' = false) ∧
    (("usage: go [[--a] [--a]]", ["[--a]", "[--a]"]) ∈ optLinesAnn "go" [aFn, aFn]) ∧
    2 ≤ (["[--a]", "[--a]"] : List String).length ∧
    ("usage: go [[--a] [--a]]" : String).length ≤ 82 :=
  ⟨(C3_amended "go" "a" [aFn, aFn]).1,
   by decide,
   (C3_amended "go" "a" [aFn, aFn]).2.1 "a " (by decide),
   by decide,
   by decide,
   (C3_amended "go" "a" [aFn, aFn]).2.2 ("usage: go [[--a] [--a]]", ["[--a]", "[--a]"])
     (by decide) (by decide)⟩

/-! ## Character-level lemmas for the name normalisation -/

theorem charLe_iff_toNat (a b : Char) : a ≤ b ↔ a.toNat ≤ b.toNat := by
  rw [Char.le_def, UInt32.le_def, BitVec.le_def]
  rfl

theorem charToNat_ofNat {n : Nat} (h : n < 55296) : (Char.ofNat n).toNat = n := by
  rw [Char.ofNat, dif_pos (Or.inl (by omega : n < 55296))]
  simp [Char.ofNatAux, Char.toNat, UInt32.toNat, BitVec.toNat_ofNatLt]

theorem charToNat_inj (a b : Char) (h : a.toNat = b.toNat) : a = b :=
  Char.eq_of_val_eq (UInt32.toNat.inj h)

theorem isUpperAscii_iff (c : Char) :
    isUpperAscii c = true ↔ 65 ≤ c.toNat ∧ c.toNat ≤ 90 := by
  simp [isUpperAscii, charLe_iff_toNat, show ('A' : Char).toNat = 65 from rfl,
    show ('Z' : Char).toNat = 90 from rfl]

theorem lowerChar_toNat_of_upper (c : Char) (h : isUpperAscii c = true) :
    (lowerChar c).toNat = c.toNat + 32 := by
  obtain ⟨h1, h2⟩ := (isUpperAscii_iff c).mp h
  simp only [lowerChar, if_pos h]
  exact charToNat_ofNat (by omega)

theorem lowerChar_not_upper (c : Char) : isUpperAscii (lowerChar c) = false := by
  by_cases h : isUpperAscii c = true
  · obtain ⟨h1, h2⟩ := (isUpperAscii_iff c).mp h
    have ht := lowerChar_toNat_of_upper c h
    rw [Bool.eq_false_iff]
    intro hcontra
    obtain ⟨hc1, hc2⟩ := (isUpperAscii_iff _).mp hcontra
    omega
  · have hf : isUpperAscii c = false := Bool.eq_false_iff.mpr h
    simp [lowerChar, hf]

theorem lowerChar_fix (c : Char) (h : isUpperAscii c = false) : lowerChar c = c := by
  simp [lowerChar, h]

theorem lowerChar_idem (c : Char) : lowerChar (lowerChar c) = lowerChar c :=
  lowerChar_fix _ (lowerChar_not_upper c)

theorem lowerChar_eq_low (c d : Char) (h : lowerChar c = d) (hd : d.toNat < 97) : c = d := by
  by_cases hu : isUpperAscii c = true
  · exfalso
    have ht := lowerChar_toNat_of_upper c hu
    rw [h] at ht
    obtain ⟨h1, -⟩ := (isUpperAscii_iff c).mp hu
    omega
  · rw [← lowerChar_fix c (Bool.eq_false_iff.mpr hu)]
    exact h

/-! ## Structural lemmas for the name normalisation -/

theorem dropWhile_eq_self_of_none {α : Type} (p : α → Bool) (l : List α)
    (h : ∀ c ∈ l, p c = false) : l.dropWhile p = l := by
  cases l with
  | nil => rfl
  | cons a as =>
    rw [List.dropWhile_cons_of_neg]
    simp [h a (List.mem_cons_self a as)]

theorem takeWhile_eq_self_of_all {α : Type} (p : α → Bool) (l : List α)
    (h : ∀ c ∈ l, p c = true) : l.takeWhile p = l := by
  induction l with
  | nil => rfl
  | cons a as ih =>
    rw [List.takeWhile_cons_of_pos (h a (List.mem_cons_self a as))]
    rw [ih fun c hc => h c (List.mem_cons_of_mem a hc)]

theorem lowerStr_no_upper (s : String) :
    ∀ c ∈ (lowerStr s).data, isUpperAscii c = false := by
  intro c hc
  simp only [lowerStr, data_strMk, List.mem_map] at hc
  obtain ⟨c0, -, rfl⟩ := hc
  exact lowerChar_not_upper c0

theorem lowerStr_fix (s : String) (h : ∀ c ∈ s.data, isUpperAscii c = false) :
    lowerStr s = s := by
  apply String.ext
  simp only [lowerStr, data_strMk]
  calc s.data.map lowerChar = s.data.map id := by
        apply List.map_congr_left
        intro c hc
        simpa using lowerChar_fix c (h c hc)
    _ = s.data := List.map_id s.data

theorem stripFirstDot_fix (s : String) (h : ∀ c ∈ s.data, c ≠ '.') :
    stripFirstDot s = s := by
  have hd : s.data.dropWhile (· ≠ '.') = [] := by
    rw [List.dropWhile_eq_nil_iff]
    intro c hc
    simpa using h c hc
  unfold stripFirstDot
  split
  · rfl
  · rename_i d rest hcons
    rw [hd] at hcons
    exact absurd hcons (by simp)

theorem stripFirstDot_subset (s : String) : ∀ c ∈ (stripFirstDot s).data, c ∈ s.data := by
  intro c hc
  unfold stripFirstDot at hc
  split at hc
  · exact hc
  · rename_i d rest h
    exact (List.dropWhile_sublist _).subset (h ▸ List.mem_cons_of_mem d hc)

theorem filepathBase_cases (s : String) :
    filepathBase s = "/" ∨ ∀ c ∈ (filepathBase s).data, c ≠ '/' := by
  simp only [filepathBase]
  split
  · right
    intro c hc
    simp only [show ("." : String).data = ['.'] from rfl, List.mem_singleton] at hc
    subst hc
    decide
  · split
    · left
      rfl
    · right
      intro c hc
      simp only [data_strMk, List.mem_reverse] at hc
      simpa using List.mem_takeWhile_imp hc

theorem filepathBase_fix (s : String) (hne : s ≠ "") (h : ∀ c ∈ s.data, c ≠ '/') :
    filepathBase s = s := by
  have hdata : s.data ≠ [] := by
    intro h0
    exact hne (by apply String.ext; simp [h0])
  have hdrop : s.data.reverse.dropWhile (· = '/') = s.data.reverse := by
    apply dropWhile_eq_self_of_none
    intro c hc
    rw [List.mem_reverse] at hc
    simpa using h c hc
  have htake : s.data.reverse.takeWhile (· ≠ '/') = s.data.reverse := by
    apply takeWhile_eq_self_of_all
    intro c hc
    rw [List.mem_reverse] at hc
    simpa using h c hc
  simp only [filepathBase, if_neg hne, hdrop, List.reverse_reverse, htake]
  rw [if_neg (by simpa using hdata)]

theorem camelTokensL_nil_iff (cs : List Char) : Cli.camelTokensL cs = [] ↔ cs = [] := by
  cases cs with
  | nil => simp [Cli.camelTokensL]
  | cons c rest =>
    simp only [Cli.camelTokensL]
    constructor
    · intro h
      split at h <;> simp at h
    · intro h
      simp at h

theorem camelTokensL_no_upper (c : Char) (rest : List Char)
    (h : ∀ x ∈ c :: rest, isUpperAscii x = false) :
    Cli.camelTokensL (c :: rest) = [c :: rest] := by
  have hc : isUpperAscii c = false := h c (List.mem_cons_self c rest)
  have hrest : ∀ x ∈ rest, isUpperAscii x = false :=
    fun x hx => h x (List.mem_cons_of_mem c hx)
  have htake : rest.takeWhile (fun x => !isUpperAscii x) = rest :=
    takeWhile_eq_self_of_all _ rest (by intro x hx; simp [hrest x hx])
  have hdrop : rest.dropWhile (fun x => !isUpperAscii x) = [] := by
    rw [List.dropWhile_eq_nil_iff]
    intro x hx
    simp [hrest x hx]
  simp [Cli.camelTokensL, hc, htake, hdrop]

theorem camelTokensL_subset : ∀ (cs : List Char), ∀ t ∈ Cli.camelTokensL cs, ∀ c ∈ t, c ∈ cs
  | [] => by simp [Cli.camelTokensL]
  | x :: rest => by
    intro t ht c hc
    by_cases hx : isUpperAscii x = true
    · simp only [Cli.camelTokensL, hx, if_true] at ht
      rcases List.mem_cons.mp ht with h1 | h1
      · subst h1
        rcases List.mem_cons.mp hc with h2 | h2
        · simp [h2]
        · rcases List.mem_append.mp h2 with h3 | h3
          · exact List.mem_cons_of_mem x ((List.takeWhile_sublist _).subset h3)
          · exact List.mem_cons_of_mem x
              ((List.dropWhile_sublist _).subset ((List.takeWhile_sublist _).subset h3))
      · have hsub := camelTokensL_subset
          ((rest.dropWhile isUpperAscii).dropWhile (fun c => !isUpperAscii c)) t h1 c hc
        exact List.mem_cons_of_mem x
          ((List.dropWhile_sublist _).subset ((List.dropWhile_sublist _).subset hsub))
    · simp only [Cli.camelTokensL, hx, if_false] at ht
      rcases List.mem_cons.mp ht with h1 | h1
      · subst h1
        rcases List.mem_cons.mp hc with h2 | h2
        · simp [h2]
        · exact List.mem_cons_of_mem x ((List.takeWhile_sublist _).subset h2)
      · have hsub := camelTokensL_subset
          (rest.dropWhile (fun c => !isUpperAscii c)) t h1 c hc
        exact List.mem_cons_of_mem x ((List.dropWhile_sublist _).subset hsub)
termination_by cs => cs.length
decreasing_by
  · have h1 := (List.dropWhile_sublist (fun c => !isUpperAscii c)
      (l := rest.dropWhile isUpperAscii)).length_le
    have h2 := (List.dropWhile_sublist isUpperAscii (l := rest)).length_le
    simp only [List.length_cons]
    omega
  · have h1 := (List.dropWhile_sublist (fun c => !isUpperAscii c) (l := rest)).length_le
    simp only [List.length_cons]
    omega

theorem joinWith_dash_data : ∀ (ts : List (List Char)),
    (joinWith "-" (ts.map String.mk)).data = joinDash ts
  | [] => rfl
  | [t] => rfl
  | t :: u :: rest => by
    simp only [List.map_cons, joinWith, joinDash, String.data_append, data_strMk]
    rw [show (joinWith "-" (String.mk u :: rest.map String.mk)).data
        = joinDash (u :: rest) from joinWith_dash_data (u :: rest)]
    simp [show ("-" : String).data = ['-'] from rfl]

theorem mem_joinDash : ∀ (ts : List (List Char)), ∀ c ∈ joinDash ts, c = '-' ∨ ∃ t ∈ ts, c ∈ t
  | [] => by simp [joinDash]
  | [t] => by
    intro c hc
    right
    exact ⟨t, by simp, by simpa [joinDash] using hc⟩
  | t :: u :: rest => by
    intro c hc
    simp only [joinDash] at hc
    rcases List.mem_append.mp hc with h | h
    · right
      exact ⟨t, by simp, h⟩
    · rcases List.mem_cons.mp h with h1 | h1
      · left
        exact h1
      · rcases mem_joinDash (u :: rest) c h1 with h2 | ⟨t2, ht2, hct⟩
        · left
          exact h2
        · right
          exact ⟨t2, List.mem_cons_of_mem t ht2, hct⟩

theorem hyphAux_append (xs : List Char) : ∀ (p : Char) (ys : List Char),
    hyphAux p (xs ++ ys) = hyphAux p xs ++ hyphAux (xs.getLastD p) ys := by
  induction xs with
  | nil => intro p ys; simp [hyphAux, List.getLastD]
  | cons x xs ih =>
    intro p ys
    simp only [List.cons_append, hyphAux, List.getLastD_cons, List.append_eq]
    by_cases hb : (isUpperAscii x && !isUpperAscii p) = true
    · rw [if_pos hb, if_pos hb, ih x ys]
      simp
    · rw [if_neg hb, if_neg hb, ih x ys]
      simp

theorem hyphAux_no_upper (xs : List Char) (h : ∀ c ∈ xs, isUpperAscii c = false) :
    ∀ p, hyphAux p xs = xs := by
  induction xs with
  | nil => intro p; rfl
  | cons x xs ih =>
    intro p
    have hx : isUpperAscii x = false := h x (List.mem_cons_self x xs)
    simp only [hyphAux, hx, Bool.false_and, if_neg]
    rw [ih fun c hc => h c (List.mem_cons_of_mem x hc)]
    simp

theorem hyphAux_upper_run (xs : List Char) (h : ∀ c ∈ xs, isUpperAscii c = true) :
    ∀ p, isUpperAscii p = true → hyphAux p xs = xs := by
  induction xs with
  | nil => intro p _; rfl
  | cons x xs ih =>
    intro p hp
    have hx : isUpperAscii x = true := h x (List.mem_cons_self x xs)
    simp only [hyphAux, hp, Bool.not_true, Bool.and_false, if_neg]
    rw [ih (fun c hc => h c (List.mem_cons_of_mem x hc)) x hx]
    simp

theorem hyphAux_boundary (q y : Char) (tl : List Char) (hq : isUpperAscii q = false)
    (hy : isUpperAscii y = true) :
    hyphAux q (y :: tl) = '-' :: hyphenateCamel (y :: tl) := by
  simp [hyphAux, hyphenateCamel, hq, hy]

theorem camel_join_eq_hyphenate : ∀ (cs : List Char),
    joinDash (Cli.camelTokensL cs) = hyphenateCamel cs
  | [] => by simp [Cli.camelTokensL, joinDash, hyphenateCamel]
  | x :: rest => by
    by_cases hx : isUpperAscii x = true
    · have hunf : Cli.camelTokensL (x :: rest)
          = (x :: (rest.takeWhile isUpperAscii
              ++ (rest.dropWhile isUpperAscii).takeWhile (fun c => !isUpperAscii c)))
            :: Cli.camelTokensL
              ((rest.dropWhile isUpperAscii).dropWhile (fun c => !isUpperAscii c)) := by
        simp [Cli.camelTokensL, hx]
      have hups : ∀ c ∈ rest.takeWhile isUpperAscii, isUpperAscii c = true :=
        fun c hc => List.mem_takeWhile_imp hc
      have hlows : ∀ c ∈ (rest.dropWhile isUpperAscii).takeWhile (fun c => !isUpperAscii c),
          isUpperAscii c = false := by
        intro c hc
        simpa using List.mem_takeWhile_imp hc
      have hrest : rest = rest.takeWhile isUpperAscii
          ++ ((rest.dropWhile isUpperAscii).takeWhile (fun c => !isUpperAscii c)
            ++ (rest.dropWhile isUpperAscii).dropWhile (fun c => !isUpperAscii c)) := by
        rw [List.takeWhile_append_dropWhile]
        exact (List.takeWhile_append_dropWhile _ _).symm
      rcases hr2 : (rest.dropWhile isUpperAscii).dropWhile (fun c => !isUpperAscii c)
          with _ | ⟨y, tl⟩
      · rw [hunf, hr2]
        rw [show hyphenateCamel (x :: rest) = x :: hyphAux x rest from rfl]
        conv_rhs => rw [hrest, hr2]
        rw [hyphAux_append, hyphAux_upper_run _ hups x hx, hyphAux_append,
          hyphAux_no_upper _ hlows]
        simp [Cli.camelTokensL, joinDash, hyphAux]
      · have hy : isUpperAscii y = true := by
          have h0 := List.head?_dropWhile_not (fun c => !isUpperAscii c)
            (rest.dropWhile isUpperAscii)
          rw [hr2] at h0
          simpa using h0
        have hlowsne : (rest.dropWhile isUpperAscii).takeWhile (fun c => !isUpperAscii c)
            ≠ [] := by
          rcases hr1 : rest.dropWhile isUpperAscii with _ | ⟨z, zs⟩
          · rw [hr1] at hr2
            simp at hr2
          · have hz : isUpperAscii z = false := by
              have h0 := List.head?_dropWhile_not isUpperAscii rest
              rw [hr1] at h0
              simpa using h0
            rw [List.takeWhile_cons_of_pos (by simp [hz])]
            simp
        have hq2 : isUpperAscii (((rest.dropWhile isUpperAscii).takeWhile
            (fun c => !isUpperAscii c)).getLastD ((rest.takeWhile isUpperAscii).getLastD x))
            = false :=
          hlows _ (getLastD_listMem _ _ hlowsne)
        rw [hunf]
        rcases hT : Cli.camelTokensL ((rest.dropWhile isUpperAscii).dropWhile
            (fun c => !isUpperAscii c)) with _ | ⟨t2, ts⟩
        · rw [camelTokensL_nil_iff, hr2] at hT
          simp at hT
        · have hIH := camel_join_eq_hyphenate ((rest.dropWhile isUpperAscii).dropWhile
            (fun c => !isUpperAscii c))
          rw [hT] at hIH
          rw [show hyphenateCamel (x :: rest) = x :: hyphAux x rest from rfl]
          conv_rhs => rw [hrest]
          rw [hyphAux_append, hyphAux_upper_run _ hups x hx, hyphAux_append,
            hyphAux_no_upper _ hlows]
          conv_rhs => rw [hr2]
          rw [hyphAux_boundary _ y tl hq2 hy, ← hr2, ← hIH]
          simp [joinDash, List.append_assoc]
    · have hxf : isUpperAscii x = false := Bool.eq_false_iff.mpr hx
      have hunf : Cli.camelTokensL (x :: rest)
          = (x :: rest.takeWhile (fun c => !isUpperAscii c))
            :: Cli.camelTokensL (rest.dropWhile (fun c => !isUpperAscii c)) := by
        simp [Cli.camelTokensL, hxf]
      have hlows : ∀ c ∈ rest.takeWhile (fun c => !isUpperAscii c),
          isUpperAscii c = false := by
        intro c hc
        simpa using List.mem_takeWhile_imp hc
      have hrest : rest = rest.takeWhile (fun c => !isUpperAscii c)
          ++ rest.dropWhile (fun c => !isUpperAscii c) :=
        (List.takeWhile_append_dropWhile _ _).symm
      have hq : isUpperAscii ((rest.takeWhile (fun c => !isUpperAscii c)).getLastD x)
          = false := by
        rcases hcase : rest.takeWhile (fun c => !isUpperAscii c) with _ | ⟨u, us⟩
        · simpa [List.getLastD] using hxf
        · exact hlows _ (hcase ▸ getLastD_listMem (u :: us) x (by simp))
      rcases hr : rest.dropWhile (fun c => !isUpperAscii c) with _ | ⟨y, tl⟩
      · rw [hunf, hr]
        rw [show hyphenateCamel (x :: rest) = x :: hyphAux x rest from rfl]
        conv_rhs => rw [hrest, hr]
        rw [hyphAux_append, hyphAux_no_upper _ hlows]
        simp [Cli.camelTokensL, joinDash, hyphAux]
      · have hy : isUpperAscii y = true := by
          have h0 := List.head?_dropWhile_not (fun c => !isUpperAscii c) rest
          rw [hr] at h0
          simpa using h0
        rw [hunf]
        rcases hT : Cli.camelTokensL (rest.dropWhile (fun c => !isUpperAscii c))
            with _ | ⟨t2, ts⟩
        · rw [camelTokensL_nil_iff, hr] at hT
          simp at hT
        · have hIH := camel_join_eq_hyphenate (rest.dropWhile (fun c => !isUpperAscii c))
          rw [hT] at hIH
          rw [show hyphenateCamel (x :: rest) = x :: hyphAux x rest from rfl]
          conv_rhs => rw [hrest]
          rw [hyphAux_append, hyphAux_no_upper _ hlows]
          conv_rhs => rw [hr]
          rw [hyphAux_boundary _ y tl hq hy, ← hr, ← hIH]
          simp [joinDash, List.append_assoc]
termination_by cs => cs.length
decreasing_by
  · have h1 := (List.dropWhile_sublist (fun c => !isUpperAscii c)
      (l := rest.dropWhile isUpperAscii)).length_le
    have h2 := (List.dropWhile_sublist isUpperAscii (l := rest)).length_le
    simp only [List.length_cons]
    omega
  · have h1 := (List.dropWhile_sublist (fun c => !isUpperAscii c) (l := rest)).length_le
    simp only [List.length_cons]
    omega

/-- The display-name computation leaves a nonempty string that contains
no upper-case letter, no slash and no dot unchanged. -/
theorem normalizeName_fix (t : String) (hne : t ≠ "")
    (hlow : ∀ c ∈ t.data, isUpperAscii c = false)
    (hslash : ∀ c ∈ t.data, c ≠ '/')
    (hdot : ∀ c ∈ t.data, c ≠ '.') :
    Cli.normalizeName t = t := by
  rcases hdata : t.data with _ | ⟨c, cs⟩
  · exact absurd (String.ext (by simpa using hdata) : t = "") hne
  · have h1 : filepathBase t = t := filepathBase_fix t hne hslash
    have h2 : stripFirstDot t = t := stripFirstDot_fix t hdot
    simp only [Cli.normalizeName, h1, h2, Cli.camelTokens]
    rw [hdata, camelTokensL_no_upper c cs (hdata ▸ hlow)]
    simp only [List.map_cons, List.map_nil, List.length_cons, List.length_nil]
    rw [if_pos (by simp)]
    have hmk : String.mk (c :: cs) = t := String.ext (by simp [hdata])
    rw [show joinWith "-" [String.mk (c :: cs)] = String.mk (c :: cs) from rfl, hmk]
    exact lowerStr_fix t hlow

/-- C7 (amended): refinement of the display-name computation.  The name
registered by `cli.NewFunction` equals the path base of the qualified
name stripped after the FIRST dot, hyphenated at every lower-to-upper
case boundary and lower-cased; the original claim strips after the LAST
dot. -/
theorem C7_amended (s : String) :
    Cli.normalizeName s = specDisplayFirstDot s := by
  simp only [Cli.normalizeName, specDisplayFirstDot, Cli.camelTokens]
  rcases hd : (stripFirstDot (filepathBase s)).data with _ | ⟨c, cs⟩
  · have hname : stripFirstDot (filepathBase s) = "" := String.ext (by simpa using hd)
    rw [hname]
    simp [Cli.camelTokensL, hyphenateCamel]
  · have hcond : (List.map String.mk (Cli.camelTokensL (c :: cs))).length ≠ 0 := by
      simp only [List.length_map, Ne, List.length_eq_zero, camelTokensL_nil_iff]
      simp
    rw [if_pos hcond]
    apply congrArg
    apply String.ext
    rw [joinWith_dash_data, camel_join_eq_hyphenate]

/-- C7 (counterexample): for a doubly qualified registration name the
code keeps everything after the FIRST dot, so `a.b.C` registers as
`b.-c`, while the spec's strip-the-qualifier (last dot) reading gives
`c`. -/
theorem C7_counterexample :
    Cli.normalizeName "a.b.C" = "b.-c" ∧ specDisplayLastDot "a.b.C" = "c" ∧
      Cli.normalizeName "a.b.C" ≠ specDisplayLastDot "a.b.C" := by
  have h1 : Cli.normalizeName "a.b.C" = "b.-c" := by
    simp [Cli.normalizeName, Cli.camelTokens, Cli.camelTokensL, stripFirstDot,
      filepathBase, isUpperAscii]
    decide
  have h2 : specDisplayLastDot "a.b.C" = "c" := by
    simp [specDisplayLastDot, stripQualifier, stripFirstDot, containsChar,
      filepathBase, hyphenateCamel, hyphAux, lowerStr, lowerChar, isUpperAscii]
  refine ⟨h1, h2, ?_⟩
  rw [h1, h2]
  decide

/-- C6 (counterexample): the display-name computation is NOT idempotent:
for `a.b.c` one application gives `b.c` and a second application strips
a further qualifier segment, giving `c`. -/
theorem C6_counterexample :
    Cli.normalizeName "a.b.c" = "b.c" ∧
      Cli.normalizeName (Cli.normalizeName "a.b.c") = "c" ∧
      Cli.normalizeName (Cli.normalizeName "a.b.c") ≠ Cli.normalizeName "a.b.c" := by
  have h1 : Cli.normalizeName "a.b.c" = "b.c" := by
    simp [Cli.normalizeName, Cli.camelTokens, Cli.camelTokensL, stripFirstDot,
      filepathBase, isUpperAscii]
    decide
  have h2 : Cli.normalizeName "b.c" = "c" := by
    simp [Cli.normalizeName, Cli.camelTokens, Cli.camelTokensL, stripFirstDot,
      filepathBase, isUpperAscii]
    decide
  refine ⟨h1, ?_, ?_⟩
  · rw [h1, h2]
  · rw [h1, h2]
    decide

/-- C6 (amended): the display-name computation is idempotent on every
input whose normalised form contains no dot; when a dot survives (a
doubly qualified registration name) a second application strips a
further qualifier segment instead of being a fixed point. -/
theorem C6_amended (s : String)
    (h : containsChar (Cli.normalizeName s) '.' = false) :
    Cli.normalizeName (Cli.normalizeName s) = Cli.normalizeName s := by
  rcases filepathBase_cases s with hb | hb
  · have ht : Cli.normalizeName s = "/" := by
      simp [Cli.normalizeName, hb, Cli.camelTokens, Cli.camelTokensL, stripFirstDot,
        isUpperAscii]
      decide
    rw [ht]
    simp [Cli.normalizeName, Cli.camelTokens, Cli.camelTokensL, stripFirstDot,
      filepathBase, isUpperAscii]
    decide
  · rcases hdata : (Cli.normalizeName s).data with _ | ⟨c, cs⟩
    · have ht : Cli.normalizeName s = "" := String.ext (by simpa using hdata)
      rw [ht]
      simp [Cli.normalizeName, Cli.camelTokens, Cli.camelTokensL, stripFirstDot,
        filepathBase, isUpperAscii]
      decide
    · have hne : Cli.normalizeName s ≠ "" := by
        intro h0
        rw [h0] at hdata
        exact List.noConfusion hdata
      have hlow : ∀ ch ∈ (Cli.normalizeName s).data, isUpperAscii ch = false := by
        simp only [Cli.normalizeName]
        exact lowerStr_no_upper _
      have hnotmem : ('.' : Char) ∉ (Cli.normalizeName s).data := by
        simpa [containsChar] using h
      have hdot : ∀ ch ∈ (Cli.normalizeName s).data, ch ≠ '.' :=
        fun ch hch heq => hnotmem (heq ▸ hch)
      have hslash : ∀ ch ∈ (Cli.normalizeName s).data, ch ≠ '/' := by
        intro ch hch
        simp only [Cli.normalizeName, lowerStr, data_strMk, List.mem_map] at hch
        obtain ⟨c0, hc0, rfl⟩ := hch
        intro heq
        have hc0' : c0 = '/' := lowerChar_eq_low c0 '/' heq (by decide)
        subst hc0'
        have hmem : ('/' : Char) ∈ (stripFirstDot (filepathBase s)).data := by
          split at hc0
          · simp only [Cli.camelTokens] at hc0
            rw [joinWith_dash_data] at hc0
            rcases mem_joinDash _ _ hc0 with hdash | ⟨tk, htk, hmemtk⟩
            · exact absurd hdash (by decide)
            · exact camelTokensL_subset _ tk htk _ hmemtk
          · exact hc0
        exact hb '/' (stripFirstDot_subset (filepathBase s) '/' hmem) rfl
      exact normalizeName_fix _ hne hlow hslash hdot

/-- C6 (witness): for `main.ListAll` the normalised form `list-all`
contains no dot and the computation is idempotent on it. -/
theorem C6_witness :
    containsChar (Cli.normalizeName "main.ListAll") '.' = false ∧
      Cli.normalizeName (Cli.normalizeName "main.ListAll")
        = Cli.normalizeName "main.ListAll" := by
  have hc : containsChar (Cli.normalizeName "main.ListAll") '.' = false := by
    simp [Cli.normalizeName, Cli.camelTokens, Cli.camelTokensL, stripFirstDot,
      filepathBase, isUpperAscii, containsChar]
    decide
  exact ⟨hc, C6_amended "main.ListAll" hc⟩

/-- C7 (witness): concrete instance of the amended refinement at
`main.ListAll`. -/
theorem C7_witness :
    Cli.normalizeName "main.ListAll" = specDisplayFirstDot "main.ListAll" :=
  C7_amended "main.ListAll"
